import Mathlib

/-!
Verification of the MILP ranking formulation of `milp_ranker.py` (the Basic
variant) and `milp_ranker_equal.py` (the Tolerant variant).

The two Python files build a mixed integer linear program through the
external Gurobi solver.  The solver itself is out of scope (the spec treats
it as a black box returning an optimal solution), so the model is embedded
shallowly: the constraint system of phase 1 becomes a predicate `FeasibleB`
(resp. `FeasibleT`) on explicit solution records, the objective becomes the
function `costB` (resp. `costT`), and the value returned as `total_cost` is
characterised by `IsOptimalCostB` (resp. `IsOptimalCostT`): a feasible
solution attains it and no feasible solution is cheaper.  Comparisons are
rational valued (the Python floats are IEEE doubles; every constant in the
program, 0, 1, 0.5 and the tie band bounds, is exactly representable, and
the model is stated over exact arithmetic as the spec does).
-/

/-- Unordered item pair, stored as an ordered pair of node ids. -/
abbrev Pair : Type := ℕ × ℕ

/-- A comparison dictionary: association list from pairs to probabilities,
in Python insertion order (later entries overwrite earlier ones). -/
abbrev CompMap : Type := List (Pair × ℚ)

/-- Canonical key of a pair: `(i, j) if i < j else (j, i)`
(both files, line 23 resp. 26). -/
def canonKey (p : Pair) : Pair := if p.1 < p.2 then p else (p.2, p.1)

/-- Canonical value of an entry: `value if i < j else 1 - value`
(both files, line 23 resp. 26). -/
def canonVal (p : Pair) (v : ℚ) : ℚ := if p.1 < p.2 then v else 1 - v

/-- Python dict write: overwrite the entry of an existing key, else append. -/
def dictInsert (m : CompMap) (k : Pair) (v : ℚ) : CompMap :=
  if m.any (fun kv => kv.1 = k) then
    m.map (fun kv => if kv.1 = k then (k, v) else kv)
  else m ++ [(k, v)]

/-- The dict comprehension
`{(i, j) if i < j else (j, i): value if i < j else 1 - value ...}`
of both files (lines 22-24 resp. 25-27): canonicalize every entry in
insertion order, later writes overwriting earlier ones. -/
def canonicalize (input : CompMap) : CompMap :=
  input.foldl (fun m kv => dictInsert m (canonKey kv.1) (canonVal kv.1 kv.2)) []

/-- The keys of a comparison map (`comparisons.keys()`). -/
def keysOf (m : CompMap) : List Pair := m.map Prod.fst

/-- All node ids appearing in the keys, with multiplicity. -/
def nodeList : CompMap → List ℕ
  | [] => []
  | kv :: rest => kv.1.1 :: kv.1.2 :: nodeList rest

/-- The node universe `np.unique([i for ij in comparisons.keys() for i in ij])`:
the distinct node ids of the comparison keys (np.unique also sorts; every
use of `nodes` in the model is order independent). -/
def nodesOf (m : CompMap) : List ℕ := (nodeList m).dedup

/-- `len(nodes)`, as a rational (it is used as a variable bound and big-M). -/
def bigM (m : CompMap) : ℚ := ((nodesOf m).length : ℚ)

theorem mem_nodeList_of_mem {m : CompMap} {kv : Pair × ℚ} (h : kv ∈ m) :
    kv.1.1 ∈ nodeList m ∧ kv.1.2 ∈ nodeList m := by
  induction m with
  | nil => cases h
  | cons hd tl ih =>
    rcases List.mem_cons.mp h with h | h
    · subst h
      constructor
      · exact List.mem_cons_self _ _
      · exact List.mem_cons_of_mem _ (List.mem_cons_self _ _)
    · rcases ih h with ⟨h1, h2⟩
      constructor
      · exact List.mem_cons_of_mem _ (List.mem_cons_of_mem _ h1)
      · exact List.mem_cons_of_mem _ (List.mem_cons_of_mem _ h2)

theorem mem_nodesOf_left {m : CompMap} {kv : Pair × ℚ} (h : kv ∈ m) :
    kv.1.1 ∈ nodesOf m := by
  unfold nodesOf
  exact List.mem_dedup.mpr (mem_nodeList_of_mem h).1

theorem mem_nodesOf_right {m : CompMap} {kv : Pair × ℚ} (h : kv ∈ m) :
    kv.1.2 ∈ nodesOf m := by
  unfold nodesOf
  exact List.mem_dedup.mpr (mem_nodeList_of_mem h).2

theorem nodesOf_nodup (m : CompMap) : (nodesOf m).Nodup := List.nodup_dedup _

/-- If a key is in the map there is an entry carrying it. -/
theorem exists_entry_of_mem_keys {m : CompMap} {p : Pair} (h : p ∈ keysOf m) :
    ∃ v : ℚ, (p, v) ∈ m := by
  unfold keysOf at h
  rcases List.mem_map.mp h with ⟨kv, hkv, hfst⟩
  exact ⟨kv.2, by simpa [← hfst] using hkv⟩

theorem canonKey_of_not_gt {x y : ℕ} (h : ¬ x > y) : canonKey (x, y) = (x, y) := by
  unfold canonKey
  rcases Nat.lt_or_ge x y with hlt | hge
  · simp [hlt]
  · have : x = y := Nat.le_antisymm (Nat.le_of_not_lt h) hge
    subst this
    simp

theorem canonKey_of_gt {x y : ℕ} (h : x > y) : canonKey (x, y) = (y, x) := by
  unfold canonKey
  simp [Nat.lt_asymm h]

/-! ## The Basic variant (milp_ranker.py): phase-1 model -/

/-- A point of the phase-1 decision space of the Basic variant: values for
the variables `e_ij`, `z_ij`, `T_ij_pos`, `T_ij_neg`, `r_i`.  Variables are
total functions; only the coordinates named by the model are constrained. -/
structure BSol where
  e : Pair → ℚ
  z : Pair → ℚ
  tp : Pair → ℚ
  tn : Pair → ℚ
  r : ℕ → ℚ

/-- `value not in [0.0, 1.0]` (lines 45/48): the abs helpers exist only for
these interior observations. -/
def interiorVal (v : ℚ) : Prop := v ≠ 0 ∧ v ≠ 1

/-- The oriented decision lookup of the transitivity loop (lines 68-84):
read the decision of the canonically stored pair, complemented when the
requested orientation is descending. -/
def zOriented (z : Pair → ℚ) (x y : ℕ) : ℚ :=
  if x > y then 1 - z (canonKey (x, y)) else z (canonKey (x, y))

/-- Constraint `(1 - z_ij) * big_m + R_i >= R_j + 1`
(line 98, and lines 148/151 of the Tolerant variant). -/
def rankLarger (M d ri rj : ℚ) : Prop := (1 - d) * M + ri ≥ rj + 1

/-- Constraint `z_ij * big_m + R_j >= R_i + 1` (line 101). -/
def rankSmaller (M d rj ri : ℚ) : Prop := d * M + rj ≥ ri + 1

/-- Constraint `(1 - eq_ij) * big_m + R_j >= R_i`
(lines 154/157 of the Tolerant variant, one direction). -/
def rankEqualOne (M d rj ri : ℚ) : Prop := (1 - d) * M + rj ≥ ri

/-- Feasibility of a point for every variable bound and constraint of the
phase-1 model of `milp_ranker.find_ranking`, for the canonicalized map `m`:
error bounds (line 34), binary decisions (line 36), rank surrogate bounds
(lines 38-39), abs helper bounds and linking (lines 44-55), the two
bracketing inequalities for the hard decision (lines 57-63), the
transitivity inequalities over defined triples (lines 65-92), and the big-M
rank constraints (lines 96-102). -/
def FeasibleB (m : CompMap) (s : BSol) : Prop :=
  (∀ kv ∈ m, -kv.2 ≤ s.e kv.1 ∧ s.e kv.1 ≤ 1 - kv.2) ∧
  (∀ kv ∈ m, s.z kv.1 = 0 ∨ s.z kv.1 = 1) ∧
  (∀ x ∈ nodesOf m, 0 ≤ s.r x ∧ s.r x ≤ bigM m) ∧
  (∀ kv ∈ m, interiorVal kv.2 →
     0 ≤ s.tp kv.1 ∧ s.tp kv.1 ≤ 1 - kv.2 ∧
     0 ≤ s.tn kv.1 ∧ s.tn kv.1 ≤ kv.2 ∧
     s.e kv.1 = s.tp kv.1 - s.tn kv.1) ∧
  (∀ kv ∈ m, s.e kv.1 + kv.2 - 1/2 ≥ -1 + s.z kv.1 ∧
             s.e kv.1 + kv.2 - 1/2 ≤ s.z kv.1) ∧
  (∀ kv ∈ m, ∀ k ∈ nodesOf m,
     canonKey (kv.1.2, k) ∈ keysOf m → canonKey (kv.1.1, k) ∈ keysOf m →
       s.z kv.1 + zOriented s.z kv.1.2 k ≤ 1 + zOriented s.z kv.1.1 k ∧
       zOriented s.z kv.1.1 k ≤ s.z kv.1 + zOriented s.z kv.1.2 k) ∧
  (∀ kv ∈ m, rankLarger (bigM m) (s.z kv.1) (s.r kv.1.1) (s.r kv.1.2) ∧
             rankSmaller (bigM m) (s.z kv.1) (s.r kv.1.2) (s.r kv.1.1))

instance (m : CompMap) (s : BSol) : Decidable (FeasibleB m s) := by
  unfold FeasibleB rankLarger rankSmaller interiorVal
  infer_instance

/-- The phase-1 objective (lines 104-113): `-e` for observations equal to 1,
`e` for observations equal to 0, `T_pos + T_neg` otherwise. -/
def costB (m : CompMap) (s : BSol) : ℚ :=
  (m.map (fun kv =>
    if kv.2 = 1 then -s.e kv.1
    else if kv.2 = 0 then s.e kv.1
    else s.tp kv.1 + s.tn kv.1)).sum

/-- `c` is the optimal phase-1 objective value: attained by some feasible
point and a lower bound of every feasible point (the value the solver
returns as `total_cost`). -/
def IsOptimalCostB (m : CompMap) (c : ℚ) : Prop :=
  (∃ s : BSol, FeasibleB m s ∧ costB m s = c) ∧
  ∀ s : BSol, FeasibleB m s → c ≤ costB m s

theorem list_sum_nonneg {l : List ℚ} (h : ∀ x ∈ l, 0 ≤ x) : 0 ≤ l.sum := by
  induction l with
  | nil => simp
  | cons hd tl ih =>
    have h1 : 0 ≤ hd := h hd (List.mem_cons_self _ _)
    have h2 : 0 ≤ tl.sum := ih (fun x hx => h x (List.mem_cons_of_mem _ hx))
    simpa using add_nonneg h1 h2

theorem list_sum_zero {l : List ℚ} (h : ∀ x ∈ l, x = 0) : l.sum = 0 := by
  induction l with
  | nil => simp
  | cons hd tl ih =>
    have h1 : hd = 0 := h hd (List.mem_cons_self _ _)
    have h2 : tl.sum = 0 := ih (fun x hx => h x (List.mem_cons_of_mem _ hx))
    simp [h1, h2]

theorem list_all_zero_of_sum_zero {l : List ℚ} (h : ∀ x ∈ l, 0 ≤ x)
    (h0 : l.sum = 0) : ∀ x ∈ l, x = 0 := by
  induction l with
  | nil => intro x hx; cases hx
  | cons hd tl ih =>
    have h1 : 0 ≤ hd := h hd (List.mem_cons_self _ _)
    have h2 : 0 ≤ tl.sum := list_sum_nonneg (fun x hx => h x (List.mem_cons_of_mem _ hx))
    have hsum : hd + tl.sum = 0 := by simpa using h0
    have hhd : hd = 0 := by linarith
    have htl : tl.sum = 0 := by linarith
    intro x hx
    rcases List.mem_cons.mp hx with rfl | hx
    · exact hhd
    · exact ih (fun y hy => h y (List.mem_cons_of_mem _ hy)) htl x hx

/-- Every term of the Basic objective is nonnegative at a feasible point. -/
theorem costB_term_nonneg {m : CompMap} {s : BSol} (h : FeasibleB m s)
    {kv : Pair × ℚ} (hkv : kv ∈ m) :
    0 ≤ (if kv.2 = 1 then -s.e kv.1 else if kv.2 = 0 then s.e kv.1
         else s.tp kv.1 + s.tn kv.1) := by
  obtain ⟨hE, -, -, hT, -, -, -⟩ := h
  rcases hE kv hkv with ⟨hel, heu⟩
  by_cases h1 : kv.2 = 1
  · rw [if_pos h1]
    rw [h1] at heu
    linarith
  · rw [if_neg h1]
    by_cases h0 : kv.2 = 0
    · rw [if_pos h0]
      rw [h0] at hel
      linarith
    · rw [if_neg h0]
      rcases hT kv hkv ⟨h0, h1⟩ with ⟨htp, -, htn, -, -⟩
      linarith

theorem costB_nonneg {m : CompMap} {s : BSol} (h : FeasibleB m s) :
    0 ≤ costB m s := by
  apply list_sum_nonneg
  intro x hx
  rcases List.mem_map.mp hx with ⟨kv, hkv, rfl⟩
  exact costB_term_nonneg h hkv

/-- At a feasible point of cost zero every error variable of the model is
zero (and the abs helpers of interior pairs are zero). -/
theorem costB_zero_errors {m : CompMap} {s : BSol} (h : FeasibleB m s)
    (h0 : costB m s = 0) : ∀ kv ∈ m, s.e kv.1 = 0 := by
  intro kv hkv
  have hall := list_all_zero_of_sum_zero
    (fun x hx => by
      rcases List.mem_map.mp hx with ⟨kv2, hkv2, rfl⟩
      exact costB_term_nonneg h hkv2) h0
  have hterm := hall _ (List.mem_map_of_mem _ hkv)
  obtain ⟨hE, -, -, hT, -, -, -⟩ := h
  rcases hE kv hkv with ⟨hel, heu⟩
  by_cases h1 : kv.2 = 1
  · rw [if_pos h1] at hterm
    linarith
  · rw [if_neg h1] at hterm
    by_cases hz : kv.2 = 0
    · rwa [if_pos hz] at hterm
    · rw [if_neg hz] at hterm
      rcases hT kv hkv ⟨hz, h1⟩ with ⟨htp, -, htn, -, hlink⟩
      have : s.tp kv.1 = 0 ∧ s.tn kv.1 = 0 := by constructor <;> linarith
      rw [hlink, this.1, this.2]
      ring

/-! ## Rank compression

Feasible rank surrogates live in `[0, n]`; the constructions below need
representatives in `[0, n-1]`.  Compression replaces each rank by the number
of distinct rank values below it, preserving strict separation and
equality. -/

/-- Number of distinct values of `r` on `nodes` strictly below `r x`. -/
def compress (nodes : List ℕ) (r : ℕ → ℚ) (x : ℕ) : ℚ :=
  (((nodes.toFinset.image r).filter (fun v => v < r x)).card : ℚ)

theorem compress_nonneg (nodes : List ℕ) (r : ℕ → ℚ) (x : ℕ) :
    0 ≤ compress nodes r x := Nat.cast_nonneg _

theorem compress_le (nodes : List ℕ) (r : ℕ → ℚ) {x : ℕ} (hx : x ∈ nodes) :
    compress nodes r x ≤ (nodes.length : ℚ) - 1 := by
  have hrx : r x ∈ nodes.toFinset.image r :=
    Finset.mem_image_of_mem r (List.mem_toFinset.mpr hx)
  have hsub : (nodes.toFinset.image r).filter (fun v => v < r x) ⊆
      (nodes.toFinset.image r).erase (r x) := by
    intro v hv
    rcases Finset.mem_filter.mp hv with ⟨hvS, hvlt⟩
    exact Finset.mem_erase.mpr ⟨ne_of_lt hvlt, hvS⟩
  have h1 : ((nodes.toFinset.image r).filter (fun v => v < r x)).card ≤
      (nodes.toFinset.image r).card - 1 := by
    calc ((nodes.toFinset.image r).filter (fun v => v < r x)).card
        ≤ ((nodes.toFinset.image r).erase (r x)).card := Finset.card_le_card hsub
      _ = (nodes.toFinset.image r).card - 1 := Finset.card_erase_of_mem hrx
  have hpos : 1 ≤ (nodes.toFinset.image r).card := Finset.card_pos.mpr ⟨r x, hrx⟩
  have h2 : ((nodes.toFinset.image r).filter (fun v => v < r x)).card + 1 ≤
      (nodes.toFinset.image r).card := by omega
  have h3 : (nodes.toFinset.image r).card ≤ nodes.length :=
    le_trans Finset.card_image_le (List.toFinset_card_le nodes)
  have h4 : ((nodes.toFinset.image r).filter (fun v => v < r x)).card + 1 ≤
      nodes.length := le_trans h2 h3
  unfold compress
  have := (Nat.cast_le (α := ℚ)).mpr h4
  push_cast at this
  linarith

theorem compress_strict (nodes : List ℕ) (r : ℕ → ℚ) {x y : ℕ}
    (hy : y ∈ nodes) (h : r y + 1 ≤ r x) :
    compress nodes r y + 1 ≤ compress nodes r x := by
  have hry : r y ∈ nodes.toFinset.image r :=
    Finset.mem_image_of_mem r (List.mem_toFinset.mpr hy)
  have hnm : r y ∉ (nodes.toFinset.image r).filter (fun v => v < r y) := by
    intro hmem
    exact absurd (Finset.mem_filter.mp hmem).2 (lt_irrefl _)
  have hsub : insert (r y) ((nodes.toFinset.image r).filter (fun v => v < r y)) ⊆
      (nodes.toFinset.image r).filter (fun v => v < r x) := by
    intro v hv
    rcases Finset.mem_insert.mp hv with rfl | hv
    · exact Finset.mem_filter.mpr ⟨hry, by linarith⟩
    · rcases Finset.mem_filter.mp hv with ⟨hvS, hvlt⟩
      exact Finset.mem_filter.mpr ⟨hvS, by linarith⟩
  have hcard : ((nodes.toFinset.image r).filter (fun v => v < r y)).card + 1 ≤
      ((nodes.toFinset.image r).filter (fun v => v < r x)).card := by
    calc ((nodes.toFinset.image r).filter (fun v => v < r y)).card + 1
        = (insert (r y) ((nodes.toFinset.image r).filter (fun v => v < r y))).card :=
          (Finset.card_insert_of_not_mem hnm).symm
      _ ≤ ((nodes.toFinset.image r).filter (fun v => v < r x)).card :=
          Finset.card_le_card hsub
  unfold compress
  have := (Nat.cast_le (α := ℚ)).mpr hcard
  push_cast at this
  linarith

theorem compress_congr (nodes : List ℕ) (r : ℕ → ℚ) {x y : ℕ}
    (h : r x = r y) : compress nodes r x = compress nodes r y := by
  unfold compress
  rw [h]

/-! ## Transitivity of the input under the Basic decision rule -/

/-- A binary decision assignment that agrees with the Basic decision rule on
the raw observed values (no correction): an observation above 1/2 decides
`i > j`, one below 1/2 decides `j > i`, and at exactly 1/2 either decision
is admissible (the spec leaves the tie break unspecified). -/
def RuleConsistentB (m : CompMap) (z : Pair → ℚ) : Prop :=
  ∀ kv ∈ m, (z kv.1 = 0 ∨ z kv.1 = 1) ∧
    (1/2 < kv.2 → z kv.1 = 1) ∧ (kv.2 < 1/2 → z kv.1 = 0)

/-- A rank function witnessing that the decisions are acyclic: every decided
relation separates the ranks strictly. -/
def RespectsB (m : CompMap) (z : Pair → ℚ) (r : ℕ → ℚ) : Prop :=
  ∀ kv ∈ m, (z kv.1 = 1 → r kv.1.1 ≥ r kv.1.2 + 1) ∧
            (z kv.1 = 0 → r kv.1.2 ≥ r kv.1.1 + 1)

/-- The input comparisons are already transitive under the Basic decision
rule: some decision assignment consistent with the raw values admits a
global strict ranking (with ranks in `[0, n-1]`), i.e. the decided
relations form no cycle and need no correction. -/
def InputTransitiveB (m : CompMap) : Prop :=
  ∃ z : Pair → ℚ, ∃ r : ℕ → ℚ, RuleConsistentB m z ∧
    (∀ x ∈ nodesOf m, 0 ≤ r x ∧ r x ≤ bigM m - 1) ∧ RespectsB m z r

/-- Semantics of the oriented decision lookup: when the leg is a stored
pair, an oriented decision of 1 separates the ranks downward and 0 upward. -/
theorem zOriented_spec {m : CompMap} {z : Pair → ℚ} {r : ℕ → ℚ}
    (hbin : ∀ kv ∈ m, z kv.1 = 0 ∨ z kv.1 = 1)
    (hresp : RespectsB m z r) {x y : ℕ}
    (hleg : canonKey (x, y) ∈ keysOf m) :
    (zOriented z x y = 0 ∨ zOriented z x y = 1) ∧
    (zOriented z x y = 1 → r x ≥ r y + 1) ∧
    (zOriented z x y = 0 → r y ≥ r x + 1) := by
  by_cases hxy : x > y
  · rw [canonKey_of_gt hxy] at hleg
    rcases exists_entry_of_mem_keys hleg with ⟨v, hv⟩
    have hz := hbin _ hv
    have hr := hresp _ hv
    have hzo : zOriented z x y = 1 - z (y, x) := by
      unfold zOriented
      rw [if_pos hxy, canonKey_of_gt hxy]
    refine ⟨?_, ?_, ?_⟩
    · rcases hz with hz | hz
      · right; rw [hzo, hz]; ring
      · left; rw [hzo, hz]; ring
    · intro h1
      rw [hzo] at h1
      have : z (y, x) = 0 := by linarith
      exact hr.2 this
    · intro h0
      rw [hzo] at h0
      have : z (y, x) = 1 := by linarith
      exact hr.1 this
  · rw [canonKey_of_not_gt hxy] at hleg
    rcases exists_entry_of_mem_keys hleg with ⟨v, hv⟩
    have hz := hbin _ hv
    have hr := hresp _ hv
    have hzo : zOriented z x y = z (x, y) := by
      unfold zOriented
      rw [if_neg hxy, canonKey_of_not_gt hxy]
    exact ⟨by rw [hzo]; exact hz, fun h1 => hr.1 (by rw [← hzo]; exact h1),
           fun h0 => hr.2 (by rw [← hzo]; exact h0)⟩

/-- From a feasible phase-1 point of cost zero the Basic input is transitive
under the decision rule: its decisions are rule consistent and its
(compressed) rank surrogates witness acyclicity. -/
theorem transitiveB_of_zero_cost {m : CompMap} {s : BSol}
    (h : FeasibleB m s) (h0 : costB m s = 0) : InputTransitiveB m := by
  have herr := costB_zero_errors h h0
  obtain ⟨hE, hZ, hR, hT, hBr, hTr, hRk⟩ := h
  refine ⟨s.z, compress (nodesOf m) s.r, ?_, ?_, ?_⟩
  · intro kv hkv
    have hz := hZ kv hkv
    have hbr := hBr kv hkv
    have he := herr kv hkv
    rw [he] at hbr
    refine ⟨hz, ?_, ?_⟩
    · intro hv
      rcases hz with hz | hz
      · exfalso
        rw [hz] at hbr
        linarith [hbr.2]
      · exact hz
    · intro hv
      rcases hz with hz | hz
      · exact hz
      · exfalso
        rw [hz] at hbr
        linarith [hbr.1]
  · intro x hx
    exact ⟨compress_nonneg _ _ _, compress_le _ _ hx⟩
  · intro kv hkv
    have hrk := hRk kv hkv
    constructor
    · intro hz1
      unfold rankLarger at hrk
      rw [hz1] at hrk
      have hsep : s.r kv.1.2 + 1 ≤ s.r kv.1.1 := by
        have := hrk.1
        linarith [this]
      exact compress_strict _ _ (mem_nodesOf_right hkv) hsep
    · intro hz0
      unfold rankSmaller at hrk
      rw [hz0] at hrk
      have hsep : s.r kv.1.1 + 1 ≤ s.r kv.1.2 := by
        have := hrk.2
        linarith [this]
      exact compress_strict _ _ (mem_nodesOf_left hkv) hsep

/-- From a transitive input (under the Basic decision rule) a feasible
phase-1 point of cost zero: take zero errors, the rule consistent
decisions, and the witnessing ranks. -/
theorem zero_cost_of_transitiveB {m : CompMap}
    (hval : ∀ kv ∈ m, 0 ≤ kv.2 ∧ kv.2 ≤ 1)
    (h : InputTransitiveB m) : ∃ s : BSol, FeasibleB m s ∧ costB m s = 0 := by
  rcases h with ⟨z, r, hcons, hbnd, hresp⟩
  have hbin : ∀ kv ∈ m, z kv.1 = 0 ∨ z kv.1 = 1 := fun kv hkv => (hcons kv hkv).1
  refine ⟨⟨fun _ => 0, z, fun _ => 0, fun _ => 0, r⟩, ⟨?_, ?_, ?_, ?_, ?_, ?_, ?_⟩, ?_⟩
  · intro kv hkv
    rcases hval kv hkv with ⟨h0, h1⟩
    constructor <;> simp <;> linarith
  · intro kv hkv
    exact hbin kv hkv
  · intro x hx
    rcases hbnd x hx with ⟨h0, h1⟩
    exact ⟨h0, by linarith⟩
  · intro kv hkv hint
    rcases hval kv hkv with ⟨h0, h1⟩
    refine ⟨le_refl 0, by simpa using h1, le_refl 0, by simpa using h0, by norm_num⟩
  · intro kv hkv
    dsimp only
    rcases hval kv hkv with ⟨h0, h1⟩
    rcases hbin kv hkv with hz | hz
    · have hub : kv.2 ≤ 1/2 := by
        by_contra hgt
        push_neg at hgt
        have := (hcons kv hkv).2.1 hgt
        rw [this] at hz
        norm_num at hz
      rw [hz]
      constructor <;> simp <;> linarith
    · have hlb : 1/2 ≤ kv.2 := by
        by_contra hlt
        push_neg at hlt
        have := (hcons kv hkv).2.2 hlt
        rw [this] at hz
        norm_num at hz
      rw [hz]
      constructor <;> simp <;> linarith
  · intro kv hkv k hk hleg2 hleg3
    dsimp only
    have ha := hbin kv hkv
    have hra := hresp kv hkv
    have hb := zOriented_spec hbin hresp hleg2
    have hc := zOriented_spec hbin hresp hleg3
    constructor
    · rcases ha with ha | ha
      · rcases hc.1 with hc1 | hc1 <;> rcases hb.1 with hb1 | hb1 <;>
          rw [ha, hb1, hc1] <;> norm_num
      · rcases hb.1 with hb1 | hb1
        · rcases hc.1 with hc1 | hc1 <;> rw [ha, hb1, hc1] <;> norm_num
        · rcases hc.1 with hc1 | hc1
          · exfalso
            have hij : r kv.1.1 ≥ r kv.1.2 + 1 := hra.1 ha
            have hjk : r kv.1.2 ≥ r k + 1 := hb.2.1 hb1
            have hki : r k ≥ r kv.1.1 + 1 := hc.2.2 hc1
            linarith
          · rw [ha, hb1, hc1] <;> norm_num
    · rcases ha with ha | ha
      · rcases hb.1 with hb1 | hb1
        · rcases hc.1 with hc1 | hc1
          · rw [ha, hb1, hc1] <;> norm_num
          · exfalso
            have hji : r kv.1.2 ≥ r kv.1.1 + 1 := hra.2 ha
            have hkj : r k ≥ r kv.1.2 + 1 := hb.2.2 hb1
            have hik : r kv.1.1 ≥ r k + 1 := hc.2.1 hc1
            linarith
        · rcases hc.1 with hc1 | hc1 <;> rw [ha, hb1, hc1] <;> norm_num
      · rcases hb.1 with hb1 | hb1 <;> rcases hc.1 with hc1 | hc1 <;>
          rw [ha, hb1, hc1] <;> norm_num
  · intro kv hkv
    unfold rankLarger rankSmaller
    dsimp only
    have hi := hbnd kv.1.1 (mem_nodesOf_left hkv)
    have hj := hbnd kv.1.2 (mem_nodesOf_right hkv)
    rcases hbin kv hkv with hz | hz
    · have hsep := (hresp kv hkv).2 hz
      rw [hz]
      constructor <;> simp <;> linarith
    · have hsep := (hresp kv hkv).1 hz
      rw [hz]
      constructor <;> simp <;> linarith
  · apply list_sum_zero
    intro x hx
    rcases List.mem_map.mp hx with ⟨kv, hkv, rfl⟩
    split_ifs <;> simp

/-! ## The Tolerant variant (milp_ranker_equal.py): phase-1 model

The parameter `max_rank` is taken at its default (`max_rank = -1 < 1`, so it
becomes `len(nodes)`, lines 43-44); `equal_width` stays a parameter `w`. -/

/-- The lower edge of the tie band: `0.5 - equal_width / 2` (line 65). -/
def lowBand (w : ℚ) : ℚ := 1/2 - w/2

/-- The upper edge of the tie band: `0.5 + equal_width / 2` (line 66). -/
def upBand (w : ℚ) : ℚ := 1/2 + w/2

/-- A point of the phase-1 decision space of the Tolerant variant. -/
structure TSol where
  e : Pair → ℚ
  ge : Pair → ℚ
  le : Pair → ℚ
  eq : Pair → ℚ
  tp : Pair → ℚ
  tn : Pair → ℚ
  r : ℕ → ℚ

/-- Kind of a decision indicator of the Tolerant variant. -/
inductive DecKind
  | dge
  | dle
  | deq
deriving DecidableEq

/-- A decision indicator: a kind together with the canonical key whose
variable it reads. -/
structure TolInd where
  kind : DecKind
  key : Pair
deriving DecidableEq

/-- One emitted transitivity inequality `a + b <= 1 + c` of the Tolerant
variant, tagged with the ordered triple `(i, j, k)` it was emitted for. -/
structure TriIneq where
  tri : ℕ × ℕ × ℕ
  a : TolInd
  b : TolInd
  c : TolInd
deriving DecidableEq

/-- Exchange the strict kinds (the flip `le_b, ge_b = ge_b, le_b` applied
when a leg is stored under the opposite orientation; lines 100-101 and
112-113). -/
def swapKind : DecKind → DecKind
  | .dge => .dle
  | .dle => .dge
  | .deq => .deq

/-- The indicator used for a leg `(x, y)`: the variable of the canonical
key, with strict kinds exchanged when the leg is stored flipped. -/
def tolInd (k : DecKind) (x y : ℕ) : TolInd :=
  if x > y then ⟨swapKind k, canonKey (x, y)⟩ else ⟨k, canonKey (x, y)⟩

/-- The seven transitivity inequalities emitted for one triple `(i, j, k)`
(lines 115-142), in program order: ge-ge, le-le, le-eq, eq-le, ge-eq,
eq-ge, eq-eq.  The first leg reads its stored key directly. -/
def tolSeven (i j k : ℕ) : List TriIneq :=
  [ ⟨(i, j, k), ⟨.dge, (i, j)⟩, tolInd .dge j k, tolInd .dge i k⟩,
    ⟨(i, j, k), ⟨.dle, (i, j)⟩, tolInd .dle j k, tolInd .dle i k⟩,
    ⟨(i, j, k), ⟨.dle, (i, j)⟩, tolInd .deq j k, tolInd .dle i k⟩,
    ⟨(i, j, k), ⟨.deq, (i, j)⟩, tolInd .dle j k, tolInd .dle i k⟩,
    ⟨(i, j, k), ⟨.dge, (i, j)⟩, tolInd .deq j k, tolInd .dge i k⟩,
    ⟨(i, j, k), ⟨.deq, (i, j)⟩, tolInd .dge j k, tolInd .dge i k⟩,
    ⟨(i, j, k), ⟨.deq, (i, j)⟩, tolInd .deq j k, tolInd .deq i k⟩ ]

/-- The transitivity constraint generator of the Tolerant variant (lines
86-142): for every stored pair `(i, j)` and every node `k`, when both legs
`(j, k)` and `(i, k)` are stored (directly or flipped), emit the seven
closure inequalities. -/
def tolTriIneqs (m : CompMap) : List TriIneq :=
  m.flatMap (fun kv => (nodesOf m).flatMap (fun k =>
    if canonKey (kv.1.2, k) ∈ keysOf m ∧ canonKey (kv.1.1, k) ∈ keysOf m
    then tolSeven kv.1.1 kv.1.2 k else []))

/-- Value of an indicator under an assignment of the three decision
families. -/
def evalInd (g l q : Pair → ℚ) : TolInd → ℚ
  | ⟨.dge, p⟩ => g p
  | ⟨.dle, p⟩ => l p
  | ⟨.deq, p⟩ => q p

/-- The inequality `a + b <= 1 + c` denoted by an emitted record. -/
def triHolds (g l q : Pair → ℚ) (t : TriIneq) : Prop :=
  evalInd g l q t.a + evalInd g l q t.b ≤ 1 + evalInd g l q t.c

/-- Oriented greater-than indicator of a leg `(x, y)`. -/
def geOrient (g l : Pair → ℚ) (x y : ℕ) : ℚ :=
  if x > y then l (canonKey (x, y)) else g (canonKey (x, y))

/-- Oriented less-than indicator of a leg `(x, y)`. -/
def leOrient (g l : Pair → ℚ) (x y : ℕ) : ℚ :=
  if x > y then g (canonKey (x, y)) else l (canonKey (x, y))

/-- Oriented equality indicator of a leg `(x, y)` (flips do not change it). -/
def eqOrient (q : Pair → ℚ) (x y : ℕ) : ℚ := q (canonKey (x, y))

/-- Feasibility for the phase-1 model of `milp_ranker_equal.find_ranking`
with tie band width `w` and the default `max_rank = len(nodes)`: error
bounds (line 37), three binary decision families (lines 39-41), rank
bounds (lines 45-46), abs helpers (lines 51-62), the bracketing
inequalities of the band decisions (lines 64-80), the sum-to-one constraint
(lines 82-84), the emitted transitivity inequalities (lines 86-142) and the
four big-M rank constraint families (lines 144-158). -/
def FeasibleT (m : CompMap) (w : ℚ) (s : TSol) : Prop :=
  (∀ kv ∈ m, -kv.2 ≤ s.e kv.1 ∧ s.e kv.1 ≤ 1 - kv.2) ∧
  (∀ kv ∈ m, (s.ge kv.1 = 0 ∨ s.ge kv.1 = 1) ∧ (s.le kv.1 = 0 ∨ s.le kv.1 = 1) ∧
             (s.eq kv.1 = 0 ∨ s.eq kv.1 = 1)) ∧
  (∀ x ∈ nodesOf m, 0 ≤ s.r x ∧ s.r x ≤ bigM m) ∧
  (∀ kv ∈ m, interiorVal kv.2 →
     0 ≤ s.tp kv.1 ∧ s.tp kv.1 ≤ 1 - kv.2 ∧
     0 ≤ s.tn kv.1 ∧ s.tn kv.1 ≤ kv.2 ∧
     s.e kv.1 = s.tp kv.1 - s.tn kv.1) ∧
  (∀ kv ∈ m, s.e kv.1 + kv.2 - upBand w ≤ s.ge kv.1 ∧
             s.e kv.1 + kv.2 - upBand w ≥ -1 + s.ge kv.1) ∧
  (∀ kv ∈ m, s.e kv.1 + kv.2 - lowBand w ≥ -(s.le kv.1) ∧
             s.e kv.1 + kv.2 - lowBand w ≤ 1 - s.le kv.1) ∧
  (∀ kv ∈ m, s.le kv.1 + s.eq kv.1 + s.ge kv.1 = 1) ∧
  (∀ t ∈ tolTriIneqs m, triHolds s.ge s.le s.eq t) ∧
  (∀ kv ∈ m, rankLarger (bigM m) (s.ge kv.1) (s.r kv.1.1) (s.r kv.1.2) ∧
             rankLarger (bigM m) (s.le kv.1) (s.r kv.1.2) (s.r kv.1.1) ∧
             rankEqualOne (bigM m) (s.eq kv.1) (s.r kv.1.2) (s.r kv.1.1) ∧
             rankEqualOne (bigM m) (s.eq kv.1) (s.r kv.1.1) (s.r kv.1.2))

instance (m : CompMap) (w : ℚ) (s : TSol) : Decidable (FeasibleT m w s) := by
  unfold FeasibleT rankLarger rankEqualOne interiorVal triHolds
  infer_instance

/-- The phase-1 objective of the Tolerant variant (lines 160-169), same
shape as the Basic one. -/
def costT (m : CompMap) (s : TSol) : ℚ :=
  (m.map (fun kv =>
    if kv.2 = 1 then -s.e kv.1
    else if kv.2 = 0 then s.e kv.1
    else s.tp kv.1 + s.tn kv.1)).sum

/-- Optimal phase-1 objective value of the Tolerant variant. -/
def IsOptimalCostT (m : CompMap) (w : ℚ) (c : ℚ) : Prop :=
  (∃ s : TSol, FeasibleT m w s ∧ costT m s = c) ∧
  ∀ s : TSol, FeasibleT m w s → c ≤ costT m s

theorem costT_term_nonneg {m : CompMap} {w : ℚ} {s : TSol} (h : FeasibleT m w s)
    {kv : Pair × ℚ} (hkv : kv ∈ m) :
    0 ≤ (if kv.2 = 1 then -s.e kv.1 else if kv.2 = 0 then s.e kv.1
         else s.tp kv.1 + s.tn kv.1) := by
  obtain ⟨hE, -, -, hT, -, -, -, -, -⟩ := h
  rcases hE kv hkv with ⟨hel, heu⟩
  by_cases h1 : kv.2 = 1
  · rw [if_pos h1]
    rw [h1] at heu
    linarith
  · rw [if_neg h1]
    by_cases h0 : kv.2 = 0
    · rw [if_pos h0]
      rw [h0] at hel
      linarith
    · rw [if_neg h0]
      rcases hT kv hkv ⟨h0, h1⟩ with ⟨htp, -, htn, -, -⟩
      linarith

theorem costT_nonneg {m : CompMap} {w : ℚ} {s : TSol} (h : FeasibleT m w s) :
    0 ≤ costT m s := by
  apply list_sum_nonneg
  intro x hx
  rcases List.mem_map.mp hx with ⟨kv, hkv, rfl⟩
  exact costT_term_nonneg h hkv

theorem costT_zero_errors {m : CompMap} {w : ℚ} {s : TSol} (h : FeasibleT m w s)
    (h0 : costT m s = 0) : ∀ kv ∈ m, s.e kv.1 = 0 := by
  intro kv hkv
  have hall := list_all_zero_of_sum_zero
    (fun x hx => by
      rcases List.mem_map.mp hx with ⟨kv2, hkv2, rfl⟩
      exact costT_term_nonneg h hkv2) h0
  have hterm := hall _ (List.mem_map_of_mem _ hkv)
  obtain ⟨hE, -, -, hT, -, -, -, -, -⟩ := h
  rcases hE kv hkv with ⟨hel, heu⟩
  by_cases h1 : kv.2 = 1
  · rw [if_pos h1] at hterm
    linarith
  · rw [if_neg h1] at hterm
    by_cases hz : kv.2 = 0
    · rwa [if_pos hz] at hterm
    · rw [if_neg hz] at hterm
      rcases hT kv hkv ⟨hz, h1⟩ with ⟨htp, -, htn, -, hlink⟩
      have : s.tp kv.1 = 0 ∧ s.tn kv.1 = 0 := by constructor <;> linarith
      rw [hlink, this.1, this.2]
      ring

/-! ## Transitivity of the input under the Tolerant decision rule -/

/-- A one-hot decision assignment agreeing with the Tolerant band rule on
the raw values: above the band forces ge, below forces le, inside the open
band forces eq (through the sum-to-one constraint); exactly at a band edge
either adjacent decision is admissible. -/
def RuleConsistentT (m : CompMap) (w : ℚ) (g l q : Pair → ℚ) : Prop :=
  ∀ kv ∈ m,
    ((g kv.1 = 0 ∨ g kv.1 = 1) ∧ (l kv.1 = 0 ∨ l kv.1 = 1) ∧
     (q kv.1 = 0 ∨ q kv.1 = 1)) ∧
    l kv.1 + q kv.1 + g kv.1 = 1 ∧
    (upBand w < kv.2 → g kv.1 = 1) ∧ (kv.2 < upBand w → g kv.1 = 0) ∧
    (kv.2 < lowBand w → l kv.1 = 1) ∧ (lowBand w < kv.2 → l kv.1 = 0)

/-- A rank function respecting the three decision families: strict
decisions separate ranks, equal decisions identify them. -/
def RespectsT (m : CompMap) (g l q : Pair → ℚ) (r : ℕ → ℚ) : Prop :=
  ∀ kv ∈ m, (g kv.1 = 1 → r kv.1.1 ≥ r kv.1.2 + 1) ∧
            (l kv.1 = 1 → r kv.1.2 ≥ r kv.1.1 + 1) ∧
            (q kv.1 = 1 → r kv.1.1 = r kv.1.2)

/-- The input comparisons are already transitive under the Tolerant band
rule: some rule consistent one-hot assignment admits a global ranking with
ties (ranks in `[0, n-1]`). -/
def InputTransitiveT (m : CompMap) (w : ℚ) : Prop :=
  ∃ g l q : Pair → ℚ, ∃ r : ℕ → ℚ, RuleConsistentT m w g l q ∧
    (∀ x ∈ nodesOf m, 0 ≤ r x ∧ r x ≤ bigM m - 1) ∧ RespectsT m g l q r

theorem evalInd_ge (g l q : Pair → ℚ) (x y : ℕ) :
    evalInd g l q (tolInd .dge x y) = geOrient g l x y := by
  unfold tolInd geOrient swapKind
  by_cases hxy : x > y
  · rw [if_pos hxy, if_pos hxy]
    rfl
  · rw [if_neg hxy, if_neg hxy]
    rfl

theorem evalInd_le (g l q : Pair → ℚ) (x y : ℕ) :
    evalInd g l q (tolInd .dle x y) = leOrient g l x y := by
  unfold tolInd leOrient swapKind
  by_cases hxy : x > y
  · rw [if_pos hxy, if_pos hxy]
    rfl
  · rw [if_neg hxy, if_neg hxy]
    rfl

theorem evalInd_eq (g l q : Pair → ℚ) (x y : ℕ) :
    evalInd g l q (tolInd .deq x y) = eqOrient q x y := by
  unfold tolInd eqOrient swapKind
  by_cases hxy : x > y
  · rw [if_pos hxy]
    rfl
  · rw [if_neg hxy]
    rfl

theorem evalInd_mkg (g l q : Pair → ℚ) (p : Pair) :
    evalInd g l q ⟨.dge, p⟩ = g p := rfl

theorem evalInd_mkl (g l q : Pair → ℚ) (p : Pair) :
    evalInd g l q ⟨.dle, p⟩ = l p := rfl

theorem evalInd_mkq (g l q : Pair → ℚ) (p : Pair) :
    evalInd g l q ⟨.deq, p⟩ = q p := rfl

/-- Semantics of the oriented Tolerant indicators on a stored leg. -/
theorem orientT_spec {m : CompMap} {w : ℚ} {g l q : Pair → ℚ} {r : ℕ → ℚ}
    (hcons : RuleConsistentT m w g l q) (hresp : RespectsT m g l q r)
    {x y : ℕ} (hleg : canonKey (x, y) ∈ keysOf m) :
    (geOrient g l x y = 0 ∨ geOrient g l x y = 1) ∧
    (leOrient g l x y = 0 ∨ leOrient g l x y = 1) ∧
    (eqOrient q x y = 0 ∨ eqOrient q x y = 1) ∧
    (leOrient g l x y + eqOrient q x y + geOrient g l x y = 1) ∧
    (geOrient g l x y = 1 → r x ≥ r y + 1) ∧
    (leOrient g l x y = 1 → r y ≥ r x + 1) ∧
    (eqOrient q x y = 1 → r x = r y) := by
  by_cases hxy : x > y
  · rw [canonKey_of_gt hxy] at hleg
    rcases exists_entry_of_mem_keys hleg with ⟨v, hv⟩
    obtain ⟨⟨hbg, hbl, hbq⟩, hsum, -⟩ := hcons _ hv
    obtain ⟨hg1, hl1, hq1⟩ := hresp _ hv
    have e1 : geOrient g l x y = l (y, x) := by
      unfold geOrient
      rw [if_pos hxy, canonKey_of_gt hxy]
    have e2 : leOrient g l x y = g (y, x) := by
      unfold leOrient
      rw [if_pos hxy, canonKey_of_gt hxy]
    have e3 : eqOrient q x y = q (y, x) := by
      unfold eqOrient
      rw [canonKey_of_gt hxy]
    rw [e1, e2, e3]
    refine ⟨hbl, hbg, hbq, by linarith, ?_, ?_, ?_⟩
    · intro h1
      exact hl1 h1
    · intro h1
      exact hg1 h1
    · intro h1
      exact (hq1 h1).symm
  · rw [canonKey_of_not_gt hxy] at hleg
    rcases exists_entry_of_mem_keys hleg with ⟨v, hv⟩
    obtain ⟨⟨hbg, hbl, hbq⟩, hsum, -⟩ := hcons _ hv
    obtain ⟨hg1, hl1, hq1⟩ := hresp _ hv
    have e1 : geOrient g l x y = g (x, y) := by
      unfold geOrient
      rw [if_neg hxy, canonKey_of_not_gt hxy]
    have e2 : leOrient g l x y = l (x, y) := by
      unfold leOrient
      rw [if_neg hxy, canonKey_of_not_gt hxy]
    have e3 : eqOrient q x y = q (x, y) := by
      unfold eqOrient
      rw [canonKey_of_not_gt hxy]
    rw [e1, e2, e3]
    exact ⟨hbg, hbl, hbq, hsum, hg1, hl1, hq1⟩

theorem nonneg_of_bin {a : ℚ} (h : a = 0 ∨ a = 1) : 0 ≤ a := by
  rcases h with h | h <;> rw [h] <;> norm_num

theorem binSum_le {a b c : ℚ} (ha : a = 0 ∨ a = 1) (hb : b = 0 ∨ b = 1)
    (hc : 0 ≤ c) (himp : a = 1 → b = 1 → c = 1) : a + b ≤ 1 + c := by
  rcases ha with ha | ha
  · rcases hb with hb | hb <;> rw [ha, hb] <;> linarith
  · rcases hb with hb | hb
    · rw [ha, hb]
      linarith
    · have hc1 := himp ha hb
      rw [ha, hb, hc1]

/-- From a feasible Tolerant phase-1 point of cost zero the input is
transitive under the band rule. -/
theorem transitiveT_of_zero_cost {m : CompMap} {w : ℚ} {s : TSol}
    (h : FeasibleT m w s) (h0 : costT m s = 0) : InputTransitiveT m w := by
  have herr := costT_zero_errors h h0
  obtain ⟨hE, hB, hR, hT, hGe, hLe, hSum, hTri, hRk⟩ := h
  refine ⟨s.ge, s.le, s.eq, compress (nodesOf m) s.r, ?_, ?_, ?_⟩
  · intro kv hkv
    have hb := hB kv hkv
    have hge := hGe kv hkv
    have hle := hLe kv hkv
    have he := herr kv hkv
    rw [he] at hge hle
    refine ⟨hb, hSum kv hkv, ?_, ?_, ?_, ?_⟩
    · intro hv
      rcases hb.1 with hz | hz
      · exfalso
        rw [hz] at hge
        linarith [hge.1]
      · exact hz
    · intro hv
      rcases hb.1 with hz | hz
      · exact hz
      · exfalso
        rw [hz] at hge
        linarith [hge.2]
    · intro hv
      rcases hb.2.1 with hz | hz
      · exfalso
        rw [hz] at hle
        linarith [hle.1]
      · exact hz
    · intro hv
      rcases hb.2.1 with hz | hz
      · exact hz
      · exfalso
        rw [hz] at hle
        linarith [hle.2]
  · intro x hx
    exact ⟨compress_nonneg _ _ _, compress_le _ _ hx⟩
  · intro kv hkv
    have hrk := hRk kv hkv
    unfold rankLarger rankEqualOne at hrk
    refine ⟨?_, ?_, ?_⟩
    · intro h1
      rw [h1] at hrk
      have hsep : s.r kv.1.2 + 1 ≤ s.r kv.1.1 := by linarith [hrk.1]
      exact compress_strict _ _ (mem_nodesOf_right hkv) hsep
    · intro h1
      rw [h1] at hrk
      have hsep : s.r kv.1.1 + 1 ≤ s.r kv.1.2 := by linarith [hrk.2.1]
      exact compress_strict _ _ (mem_nodesOf_left hkv) hsep
    · intro h1
      rw [h1] at hrk
      have heq : s.r kv.1.1 = s.r kv.1.2 := by
        have h2 := hrk.2.2.1
        have h3 := hrk.2.2.2
        linarith
      exact compress_congr _ _ heq

/-- From a transitive input under the band rule (with `0 <= w <= 1`, the
documented range of `equal_width`) a feasible Tolerant phase-1 point of
cost zero: zero errors, the rule consistent decisions, the witnessing
ranks. -/
theorem zero_cost_of_transitiveT {m : CompMap} {w : ℚ}
    (hval : ∀ kv ∈ m, 0 ≤ kv.2 ∧ kv.2 ≤ 1) (hw0 : 0 ≤ w) (hw1 : w ≤ 1)
    (h : InputTransitiveT m w) :
    ∃ s : TSol, FeasibleT m w s ∧ costT m s = 0 := by
  rcases h with ⟨g, l, q, r, hcons, hbnd, hresp⟩
  refine ⟨⟨fun _ => 0, g, l, q, fun _ => 0, fun _ => 0, r⟩,
    ⟨?_, ?_, ?_, ?_, ?_, ?_, ?_, ?_, ?_⟩, ?_⟩
  · intro kv hkv
    dsimp only
    rcases hval kv hkv with ⟨h0, h1⟩
    constructor <;> linarith
  · intro kv hkv
    dsimp only
    exact (hcons kv hkv).1
  · intro x hx
    dsimp only
    rcases hbnd x hx with ⟨h0, h1⟩
    exact ⟨h0, by linarith⟩
  · intro kv hkv hint
    dsimp only
    rcases hval kv hkv with ⟨h0, h1⟩
    refine ⟨le_refl 0, by linarith, le_refl 0, by linarith, by norm_num⟩
  · intro kv hkv
    dsimp only
    obtain ⟨⟨hbg, hbl, hbq⟩, hsum, hr1, hr2, hr3, hr4⟩ := hcons kv hkv
    rcases hval kv hkv with ⟨h0, h1⟩
    have hU1 : upBand w ≤ 1 := by
      unfold upBand
      linarith
    have hU0 : 0 ≤ upBand w := by
      unfold upBand
      linarith
    rcases hbg with hz | hz
    · have hvle : kv.2 ≤ upBand w := by
        by_contra hgt
        push_neg at hgt
        have := hr1 hgt
        rw [this] at hz
        norm_num at hz
      rw [hz]
      constructor <;> linarith
    · have hvge : upBand w ≤ kv.2 := by
        by_contra hlt
        push_neg at hlt
        have := hr2 hlt
        rw [this] at hz
        norm_num at hz
      rw [hz]
      constructor <;> linarith
  · intro kv hkv
    dsimp only
    obtain ⟨⟨hbg, hbl, hbq⟩, hsum, hr1, hr2, hr3, hr4⟩ := hcons kv hkv
    rcases hval kv hkv with ⟨h0, h1⟩
    have hL0 : 0 ≤ lowBand w := by
      unfold lowBand
      linarith
    have hL1 : lowBand w ≤ 1 := by
      unfold lowBand
      linarith
    rcases hbl with hz | hz
    · have hvge : lowBand w ≤ kv.2 := by
        by_contra hlt
        push_neg at hlt
        have := hr3 hlt
        rw [this] at hz
        norm_num at hz
      rw [hz]
      constructor <;> linarith
    · have hvle : kv.2 ≤ lowBand w := by
        by_contra hgt
        push_neg at hgt
        have := hr4 hgt
        rw [this] at hz
        norm_num at hz
      rw [hz]
      constructor <;> linarith
  · intro kv hkv
    dsimp only
    exact (hcons kv hkv).2.1
  · intro t ht
    dsimp only
    unfold tolTriIneqs at ht
    rcases List.mem_flatMap.mp ht with ⟨kv, hkv, ht2⟩
    rcases List.mem_flatMap.mp ht2 with ⟨k, hk, ht3⟩
    by_cases hguard : canonKey (kv.1.2, k) ∈ keysOf m ∧ canonKey (kv.1.1, k) ∈ keysOf m
    · rw [if_pos hguard] at ht3
      obtain ⟨hleg2, hleg3⟩ := hguard
      obtain ⟨hBg, hBl, hBq, hBsum, hBgs, hBls, hBqs⟩ :=
        orientT_spec hcons hresp hleg2
      obtain ⟨hCg, hCl, hCq, hCsum, hCgs, hCls, hCqs⟩ :=
        orientT_spec hcons hresp hleg3
      obtain ⟨⟨hAg, hAl, hAq⟩, hAsum, -⟩ := hcons kv hkv
      obtain ⟨hAgs, hAls, hAqs⟩ := hresp kv hkv
      simp only [tolSeven, List.mem_cons, List.not_mem_nil, or_false] at ht3
      have hkveta : (kv.1.1, kv.1.2) = kv.1 := by
        rcases kv with ⟨⟨i, j⟩, v⟩
        rfl
      rcases ht3 with rfl | rfl | rfl | rfl | rfl | rfl | rfl
      · simp only [triHolds, evalInd_mkg, evalInd_ge, hkveta]
        refine binSum_le hAg hBg (nonneg_of_bin hCg) ?_
        intro h1 h2
        have ha := hAgs h1
        have hb := hBgs h2
        rcases hCg with hC0 | hC1
        · exfalso
          rcases hCl with hl0 | hl1
          · rcases hCq with hq0 | hq1
            · linarith
            · have := hCqs hq1
              linarith
          · have := hCls hl1
            linarith
        · exact hC1
      · simp only [triHolds, evalInd_mkl, evalInd_le, hkveta]
        refine binSum_le hAl hBl (nonneg_of_bin hCl) ?_
        intro h1 h2
        have ha := hAls h1
        have hb := hBls h2
        rcases hCl with hC0 | hC1
        · exfalso
          rcases hCg with hg0 | hg1
          · rcases hCq with hq0 | hq1
            · linarith
            · have := hCqs hq1
              linarith
          · have := hCgs hg1
            linarith
        · exact hC1
      · simp only [triHolds, evalInd_mkl, evalInd_eq, evalInd_le, hkveta]
        refine binSum_le hAl hBq (nonneg_of_bin hCl) ?_
        intro h1 h2
        have ha := hAls h1
        have hb := hBqs h2
        rcases hCl with hC0 | hC1
        · exfalso
          rcases hCg with hg0 | hg1
          · rcases hCq with hq0 | hq1
            · linarith
            · have := hCqs hq1
              linarith
          · have := hCgs hg1
            linarith
        · exact hC1
      · simp only [triHolds, evalInd_mkq, evalInd_le, hkveta]
        refine binSum_le hAq hBl (nonneg_of_bin hCl) ?_
        intro h1 h2
        have ha := hAqs h1
        have hb := hBls h2
        rcases hCl with hC0 | hC1
        · exfalso
          rcases hCg with hg0 | hg1
          · rcases hCq with hq0 | hq1
            · linarith
            · have := hCqs hq1
              linarith
          · have := hCgs hg1
            linarith
        · exact hC1
      · simp only [triHolds, evalInd_mkg, evalInd_eq, evalInd_ge, hkveta]
        refine binSum_le hAg hBq (nonneg_of_bin hCg) ?_
        intro h1 h2
        have ha := hAgs h1
        have hb := hBqs h2
        rcases hCg with hC0 | hC1
        · exfalso
          rcases hCl with hl0 | hl1
          · rcases hCq with hq0 | hq1
            · linarith
            · have := hCqs hq1
              linarith
          · have := hCls hl1
            linarith
        · exact hC1
      · simp only [triHolds, evalInd_mkq, evalInd_ge, hkveta]
        refine binSum_le hAq hBg (nonneg_of_bin hCg) ?_
        intro h1 h2
        have ha := hAqs h1
        have hb := hBgs h2
        rcases hCg with hC0 | hC1
        · exfalso
          rcases hCl with hl0 | hl1
          · rcases hCq with hq0 | hq1
            · linarith
            · have := hCqs hq1
              linarith
          · have := hCls hl1
            linarith
        · exact hC1
      · simp only [triHolds, evalInd_mkq, evalInd_eq, hkveta]
        refine binSum_le hAq hBq (nonneg_of_bin hCq) ?_
        intro h1 h2
        have ha := hAqs h1
        have hb := hBqs h2
        rcases hCq with hC0 | hC1
        · exfalso
          rcases hCl with hl0 | hl1
          · rcases hCg with hg0 | hg1
            · linarith
            · have := hCgs hg1
              linarith
          · have := hCls hl1
            linarith
        · exact hC1
    · rw [if_neg hguard] at ht3
      cases ht3
  · intro kv hkv
    dsimp only
    unfold rankLarger rankEqualOne
    obtain ⟨⟨hAg, hAl, hAq⟩, hAsum, -⟩ := hcons kv hkv
    obtain ⟨hAgs, hAls, hAqs⟩ := hresp kv hkv
    have hi := hbnd kv.1.1 (mem_nodesOf_left hkv)
    have hj := hbnd kv.1.2 (mem_nodesOf_right hkv)
    refine ⟨?_, ?_, ?_, ?_⟩
    · rcases hAg with hz | hz
      · rw [hz]
        linarith [hi.1, hj.2]
      · rw [hz]
        have := hAgs hz
        linarith
    · rcases hAl with hz | hz
      · rw [hz]
        linarith [hj.1, hi.2]
      · rw [hz]
        have := hAls hz
        linarith
    · rcases hAq with hz | hz
      · rw [hz]
        linarith [hj.1, hi.2]
      · rw [hz]
        have := hAqs hz
        linarith
    · rcases hAq with hz | hz
      · rw [hz]
        linarith [hi.1, hj.2]
      · rw [hz]
        have := hAqs hz
        linarith
  · apply list_sum_zero
    intro x hx
    rcases List.mem_map.mp hx with ⟨kv, hkv, rfl⟩
    split_ifs <;> simp

/-! ## Claim C1 -/

/-- C1: for every input mapping with all probabilities in [0,1], the
total_cost returned by find_ranking (the optimal phase-1 objective value,
in both the Basic and the Tolerant variant; `equal_width` in its documented
range [0,1], `max_rank` at its default) is nonnegative, and it equals 0 if
and only if the input comparisons are already transitive under the chosen
decision rule (some decision assignment consistent with the rule on the
raw values admits a global ranking, i.e. no correction is needed). -/
theorem C1_cost_nonneg_iff_transitive (m : CompMap) (w cB cT : ℚ)
    (hval : ∀ kv ∈ m, 0 ≤ kv.2 ∧ kv.2 ≤ 1) (hw0 : 0 ≤ w) (hw1 : w ≤ 1)
    (hB : IsOptimalCostB m cB) (hT : IsOptimalCostT m w cT) :
    (0 ≤ cB ∧ (cB = 0 ↔ InputTransitiveB m)) ∧
    (0 ≤ cT ∧ (cT = 0 ↔ InputTransitiveT m w)) := by
  obtain ⟨⟨sB, hsB, hcB⟩, hminB⟩ := hB
  obtain ⟨⟨sT, hsT, hcT⟩, hminT⟩ := hT
  have hnnB : 0 ≤ cB := hcB ▸ costB_nonneg hsB
  have hnnT : 0 ≤ cT := hcT ▸ costT_nonneg hsT
  refine ⟨⟨hnnB, ?_, ?_⟩, hnnT, ?_, ?_⟩
  · intro h0
    exact transitiveB_of_zero_cost hsB (hcB.trans h0)
  · intro htrans
    obtain ⟨s, hs, h0⟩ := zero_cost_of_transitiveB hval htrans
    have hle := hminB s hs
    rw [h0] at hle
    linarith
  · intro h0
    exact transitiveT_of_zero_cost hsT (hcT.trans h0)
  · intro htrans
    obtain ⟨s, hs, h0⟩ := zero_cost_of_transitiveT hval hw0 hw1 htrans
    have hle := hminT s hs
    rw [h0] at hle
    linarith

/-- A one pair example: item 0 beats item 1 with probability 1. -/
def c1map : CompMap := [((0, 1), 1)]

/-- A zero cost feasible Basic point for `c1map`. -/
def c1solB : BSol :=
  ⟨fun _ => 0, fun _ => 1, fun _ => 0, fun _ => 0, fun x => if x = 0 then 1 else 0⟩

/-- A zero cost feasible Tolerant point for `c1map`. -/
def c1solT : TSol :=
  ⟨fun _ => 0, fun _ => 1, fun _ => 0, fun _ => 0, fun _ => 0, fun _ => 0,
   fun x => if x = 0 then 1 else 0⟩

theorem c1map_nodes : nodesOf c1map = [0, 1] := by
  simp [nodesOf, nodeList, c1map]

theorem c1map_bigM : bigM c1map = 2 := by
  unfold bigM
  rw [c1map_nodes]
  norm_num

theorem c1B_feasible : FeasibleB c1map c1solB := by
  unfold FeasibleB
  rw [c1map_nodes, c1map_bigM]
  refine ⟨?_, ?_, ?_, ?_, ?_, ?_, ?_⟩ <;>
    simp [c1map, c1solB, rankLarger, rankSmaller, interiorVal, zOriented,
      canonKey, keysOf] <;> norm_num

theorem c1B_cost : costB c1map c1solB = 0 := by
  simp [costB, c1map, c1solB]

theorem c1map_tols : tolTriIneqs c1map = [] := by decide

theorem c1T_feasible : FeasibleT c1map (1/5) c1solT := by
  unfold FeasibleT
  rw [c1map_nodes, c1map_bigM, c1map_tols]
  refine ⟨?_, ?_, ?_, ?_, ?_, ?_, ?_, ?_, ?_⟩ <;>
    simp [c1map, c1solT, rankLarger, rankEqualOne, interiorVal,
      canonKey, keysOf, upBand, lowBand] <;> norm_num

theorem c1T_cost : costT c1map c1solT = 0 := by
  simp [costT, c1map, c1solT]

theorem C1_cost_nonneg_iff_transitive_witness :
    (0 ≤ (0 : ℚ) ∧ ((0 : ℚ) = 0 ↔ InputTransitiveB c1map)) ∧
    (0 ≤ (0 : ℚ) ∧ ((0 : ℚ) = 0 ↔ InputTransitiveT c1map (1/5))) :=
  C1_cost_nonneg_iff_transitive c1map (1/5) 0 0
    (by
      intro kv hkv
      simp [c1map] at hkv
      subst hkv
      norm_num) (by norm_num) (by norm_num)
    ⟨⟨c1solB, c1B_feasible, c1B_cost⟩, fun s hs => costB_nonneg hs⟩
    ⟨⟨c1solT, c1T_feasible, c1T_cost⟩, fun s hs => costT_nonneg hs⟩

/-! ## Claim C7: orientation symmetry -/

theorem canonicalize_singleton (p : Pair) (v : ℚ) :
    canonicalize [(p, v)] = [(canonKey p, canonVal p v)] := by
  unfold canonicalize dictInsert
  simp

/-- C7: for distinct items and any value, presenting the comparison in
either orientation yields the same canonical map, hence the same phase-1
optimal cost in both variants (and the same downstream results, which are
functions of the canonical map alone). -/
theorem C7_orientation_symmetry (i j : ℕ) (v : ℚ) (hij : i ≠ j) :
    canonicalize [((i, j), v)] = canonicalize [((j, i), 1 - v)] ∧
    (∀ c : ℚ, IsOptimalCostB (canonicalize [((i, j), v)]) c ↔
              IsOptimalCostB (canonicalize [((j, i), 1 - v)]) c) ∧
    (∀ w c : ℚ, IsOptimalCostT (canonicalize [((i, j), v)]) w c ↔
                IsOptimalCostT (canonicalize [((j, i), 1 - v)]) w c) := by
  have hmain : canonicalize [((i, j), v)] = canonicalize [((j, i), 1 - v)] := by
    rw [canonicalize_singleton, canonicalize_singleton]
    rcases lt_or_gt_of_ne hij with h | h
    · have h2 : ¬ j < i := Nat.lt_asymm h
      unfold canonKey canonVal
      simp only [h, h2, if_pos, if_neg, if_true, if_false]
      norm_num
    · have h2 : ¬ i < j := Nat.lt_asymm h
      unfold canonKey canonVal
      simp [h, h2]
  exact ⟨hmain, fun c => by rw [hmain], fun w c => by rw [hmain]⟩

theorem C7_orientation_symmetry_witness :
    canonicalize [((0, 1), 1/3)] = canonicalize [((1, 0), 1 - 1/3)] ∧
    (∀ c : ℚ, IsOptimalCostB (canonicalize [((0, 1), 1/3)]) c ↔
              IsOptimalCostB (canonicalize [((1, 0), 1 - 1/3)]) c) ∧
    (∀ w c : ℚ, IsOptimalCostT (canonicalize [((0, 1), 1/3)]) w c ↔
                IsOptimalCostT (canonicalize [((1, 0), 1 - 1/3)]) w c) :=
  C7_orientation_symmetry 0 1 (1/3) (by norm_num)

/-! ## Claim C10: the Basic phase 2 never ties compared items -/

/-- Phase-2 feasibility of the Basic variant (lines 123-133): fresh rank
variables bounded by `[0, len(nodes)]` with one strict separation per
stored pair, oriented by the phase-1 decision `z`: `R_i >= R_j + 1` when
`z_ij = 1`, else `R_j >= R_i + 1`. -/
def Phase2FeasibleB (m : CompMap) (z : Pair → ℚ) (r : ℕ → ℚ) : Prop :=
  (∀ x ∈ nodesOf m, 0 ≤ r x ∧ r x ≤ bigM m) ∧
  (∀ kv ∈ m, if z kv.1 = 1 then r kv.1.1 ≥ r kv.1.2 + 1
             else r kv.1.2 ≥ r kv.1.1 + 1)

/-- C10: every feasible point of the Basic phase-2 model separates the
ranks of any two compared items by at least 1, so the returned ranks (an
optimal, hence feasible, point) never tie compared items, for any input
and any phase-1 decisions. -/
theorem C10_phase2_strict_separation (m : CompMap) (z : Pair → ℚ)
    (r : ℕ → ℚ) (h : Phase2FeasibleB m z r) {kv : Pair × ℚ} (hkv : kv ∈ m) :
    |r kv.1.1 - r kv.1.2| ≥ 1 := by
  have h2 := h.2 kv hkv
  by_cases hz : z kv.1 = 1
  · rw [if_pos hz] at h2
    have h1 : 1 ≤ r kv.1.1 - r kv.1.2 := by linarith
    exact le_trans h1 (le_abs_self _)
  · rw [if_neg hz] at h2
    have h1 : 1 ≤ r kv.1.2 - r kv.1.1 := by linarith
    calc (1 : ℚ) ≤ r kv.1.2 - r kv.1.1 := h1
      _ ≤ |r kv.1.2 - r kv.1.1| := le_abs_self _
      _ = |r kv.1.1 - r kv.1.2| := abs_sub_comm _ _

/-- Decisions and ranks of a concrete phase-2 point for `c1map`. -/
def c10z : Pair → ℚ := fun _ => 1

/-- Concrete phase-2 rank assignment for `c1map`. -/
def c10rank : ℕ → ℚ := fun x => if x = 0 then 1 else 0

theorem C10_phase2_strict_separation_witness :
    |c10rank 0 - c10rank 1| ≥ 1 := by
  have hfeas : Phase2FeasibleB c1map c10z c10rank := by
    constructor
    · rw [c1map_nodes, c1map_bigM]
      intro x hx
      fin_cases hx <;> simp [c10rank] <;> norm_num
    · intro kv hkv
      simp [c1map] at hkv
      subst hkv
      simp [c10z, c10rank]
  exact @C10_phase2_strict_separation c1map c10z c10rank hfeas ((0, 1), 1)
    (by simp [c1map])

/-! ## Claim C2: the returned rank list -/

/-- The phase-2 variable read `model_.getVarByName(f'r_i[{x}]')` (line
135/193): look up a rank value by the node id in the variable name; `none`
models a missing variable (the Python code then crashes reading `.X` of
`None`). -/
def getVarByName (vars : List (ℕ × ℚ)) (x : ℕ) : Option ℚ :=
  (vars.find? (fun nv => nv.1 == x)).map Prod.snd

/-- The returned rank list of both variants (lines 135-136 and 193-194):
`[... f'r_i[{x}]' ... for x in range(len(nodes))]` reads the variables
named `r_i[0], ..., r_i[n-1]`, not those named by the actual node ids. -/
def extractRanks (vars : List (ℕ × ℚ)) (n : ℕ) : List (Option ℚ) :=
  (List.range n).map (getVarByName vars)

/-- C2 is wrong about the code: with node ids {5, 7} the phase-2 model owns
variables named `r_i[5]` and `r_i[7]` (holding the two ranks), but the
extraction reads `r_i[0]` and `r_i[1]`, which do not exist — both lookups
fail instead of returning the ranks of the sorted node ids.  The claimed
behavior is only obtained when the node ids are exactly `0..n-1` (second
conjunct). -/
theorem C2_extraction_reads_range :
    extractRanks [(5, 0), (7, 1)] 2 = [none, none] ∧
    extractRanks [(0, 5), (1, 9)] 2 = [some 5, some 9] := ⟨rfl, rfl⟩

/-! ## Claim C8: the post-solve abs check -/

/-- The intended post-solve invariant (comment `verify abs emulation: one
T_ij has to be 0`, lines 118/174): at least one abs helper of each interior
pair vanishes. -/
def absCheckIntended (tp tn : ℚ) : Prop := min tp tn = 0

/-- The check the code performs (lines 120/176): `assert value.X == 0 or
T_ij_neg[ij] == 0`.  The second operand compares the solver variable object
itself, not its value `.X`; in gurobipy that expression builds a constraint
object, which is truthy as an operand of `or`, so the disjunct always
holds. -/
def absCheckCode (tp tn : ℚ) : Prop := tp = 0 ∨ True

/-- C8 is wrong about the code: a post-solve state with both abs helpers
equal to 1/2 violates the intended invariant, yet the coded assert passes
(its second disjunct is vacuously true), so the call does not fail if and
only if the invariant is violated — it never fails. -/
theorem C8_assert_never_fires :
    absCheckCode (1/2) (1/2) ∧ ¬ absCheckIntended (1/2) (1/2) := by
  constructor
  · exact Or.inr trivial
  · unfold absCheckIntended
    rw [min_self]
    norm_num

/-! ## Claim C5: the big-M rank links -/

/-- C5 counterexample: take `max_rank = 2` (two nodes), an inactive strict
decision (`d = 0`), and the in-bounds surrogates `R_i = 0`, `R_j = 2`.
The relaxed constraint `(1 - d) * M + R_i >= R_j + 1` reads `2 >= 3` and
fails, so the big-M relaxation is not satisfied by every assignment within
the bounds `[0, max_rank]`. -/
theorem C5_inactive_not_vacuous :
    (0 : ℚ) ≤ 0 ∧ (0 : ℚ) ≤ 2 ∧ (0 : ℚ) ≤ 2 ∧ (2 : ℚ) ≤ 2 ∧
    ¬ rankLarger 2 0 0 2 := by
  refine ⟨by norm_num, by norm_num, by norm_num, by norm_num, ?_⟩
  unfold rankLarger
  norm_num

/-- C5 amended: an active strict link forces `R_i >= R_j + 1` and an active
equal link forces `R_i = R_j`; an inactive equal link is vacuous inside the
bounds; but an inactive strict link is only equivalent to
`R_i >= R_j + 1 - M` (vacuous when the gap stays below `M`), not to every
in-bounds assignment.  The same holds for the second Basic family, whose
active decision value is `d = 0`. -/
theorem C5_rank_link_amended (M ri rj : ℚ) :
    (rankLarger M 1 ri rj ↔ ri ≥ rj + 1) ∧
    ((rankEqualOne M 1 rj ri ∧ rankEqualOne M 1 ri rj) ↔ ri = rj) ∧
    (rankLarger M 0 ri rj ↔ ri ≥ rj + 1 - M) ∧
    (0 ≤ rj → ri ≤ M → rankEqualOne M 0 rj ri) ∧
    (rankSmaller M 0 rj ri ↔ rj ≥ ri + 1) ∧
    (rankSmaller M 1 rj ri ↔ rj ≥ ri + 1 - M) := by
  unfold rankLarger rankEqualOne rankSmaller
  refine ⟨?_, ?_, ?_, ?_, ?_, ?_⟩
  · constructor <;> intro h <;> linarith
  · constructor
    · intro h
      rcases h with ⟨h1, h2⟩
      have := h1
      have := h2
      linarith [h1, h2]
    · intro h
      constructor <;> linarith
  · constructor <;> intro h <;> linarith
  · intro h1 h2
    linarith
  · constructor <;> intro h <;> linarith
  · constructor <;> intro h <;> linarith

theorem C5_rank_link_amended_witness :
    (rankLarger 2 1 (3 : ℚ) 2 ↔ (3 : ℚ) ≥ 2 + 1) ∧
    ((rankEqualOne 2 1 (2 : ℚ) 3 ∧ rankEqualOne 2 1 (3 : ℚ) 2) ↔ (3 : ℚ) = 2) ∧
    (rankLarger 2 0 (3 : ℚ) 2 ↔ (3 : ℚ) ≥ 2 + 1 - 2) ∧
    (0 ≤ (2 : ℚ) → (3 : ℚ) ≤ 2 → rankEqualOne 2 0 (2 : ℚ) 3) ∧
    (rankSmaller 2 0 (2 : ℚ) 3 ↔ (2 : ℚ) ≥ 3 + 1) ∧
    (rankSmaller 2 1 (2 : ℚ) 3 ↔ (2 : ℚ) ≥ 3 + 1 - 2) :=
  C5_rank_link_amended 2 3 2

/-! ## Claim C3: the Basic threshold rule -/

/-- A single comparison observed at exactly the threshold 1/2. -/
def c3map : CompMap := [((0, 1), 1/2)]

/-- A feasible Basic point for `c3map` with zero error and decision 0. -/
def c3sol : BSol :=
  ⟨fun _ => 0, fun _ => 0, fun _ => 0, fun _ => 0, fun x => if x = 0 then 0 else 1⟩

theorem c3map_nodes : nodesOf c3map = [0, 1] := by
  simp [nodesOf, nodeList, c3map]

theorem c3map_bigM : bigM c3map = 2 := by
  unfold bigM
  rw [c3map_nodes]
  norm_num

theorem c3sol_feasible : FeasibleB c3map c3sol := by
  unfold FeasibleB
  rw [c3map_nodes, c3map_bigM]
  refine ⟨?_, ?_, ?_, ?_, ?_, ?_, ?_⟩ <;>
    simp [c3map, c3sol, rankLarger, rankSmaller, interiorVal, zOriented,
      canonKey, keysOf] <;> norm_num

/-- C3 counterexample: at observation exactly 1/2 the point `c3sol` is
feasible, its corrected value `s + e = 1/2` satisfies `>= 1/2`, yet its
binary decision is 0 — the bracketing inequalities do not force
`z = 1 iff corrected >= 1/2` at the threshold. -/
theorem C3_threshold_not_forced :
    FeasibleB c3map c3sol ∧
    c3sol.e (0, 1) + 1/2 ≥ 1/2 ∧ c3sol.z (0, 1) ≠ 1 := by
  refine ⟨c3sol_feasible, ?_, ?_⟩
  · simp [c3sol]
  · simp [c3sol]

/-- C3 amended: in every feasible Basic solution and stored pair, the
bracketing inequalities force `z = 1` to imply corrected value `>= 1/2`
and `z = 0` to imply corrected value `<= 1/2`; hence a corrected value
strictly above 1/2 forces `z = 1` and strictly below forces `z = 0`.  At
a corrected value of exactly 1/2 both decisions are feasible (the solver
dependent tie break of the spec). -/
theorem C3_decision_rule_amended (m : CompMap) (s : BSol)
    (h : FeasibleB m s) : ∀ kv ∈ m,
    (s.z kv.1 = 1 → s.e kv.1 + kv.2 ≥ 1/2) ∧
    (s.z kv.1 = 0 → s.e kv.1 + kv.2 ≤ 1/2) ∧
    (s.e kv.1 + kv.2 > 1/2 → s.z kv.1 = 1) ∧
    (s.e kv.1 + kv.2 < 1/2 → s.z kv.1 = 0) := by
  intro kv hkv
  obtain ⟨-, hZ, -, -, hBr, -, -⟩ := h
  have hz := hZ kv hkv
  have hbr := hBr kv hkv
  refine ⟨?_, ?_, ?_, ?_⟩
  · intro h1
    rw [h1] at hbr
    linarith [hbr.1]
  · intro h0
    rw [h0] at hbr
    linarith [hbr.2]
  · intro hgt
    rcases hz with hz | hz
    · exfalso
      rw [hz] at hbr
      linarith [hbr.2]
    · exact hz
  · intro hlt
    rcases hz with hz | hz
    · exact hz
    · exfalso
      rw [hz] at hbr
      linarith [hbr.1]

theorem C3_decision_rule_amended_witness :
    (c3sol.z ((0, 1), (1:ℚ)/2).1 = 1 →
      c3sol.e ((0, 1), (1:ℚ)/2).1 + ((0, 1), (1:ℚ)/2).2 ≥ 1/2) ∧
    (c3sol.z ((0, 1), (1:ℚ)/2).1 = 0 →
      c3sol.e ((0, 1), (1:ℚ)/2).1 + ((0, 1), (1:ℚ)/2).2 ≤ 1/2) ∧
    (c3sol.e ((0, 1), (1:ℚ)/2).1 + ((0, 1), (1:ℚ)/2).2 > 1/2 →
      c3sol.z ((0, 1), (1:ℚ)/2).1 = 1) ∧
    (c3sol.e ((0, 1), (1:ℚ)/2).1 + ((0, 1), (1:ℚ)/2).2 < 1/2 →
      c3sol.z ((0, 1), (1:ℚ)/2).1 = 0) :=
  C3_decision_rule_amended c3map c3sol c3sol_feasible ((0, 1), 1/2)
    (by simp [c3map])

/-! ## Claim C4: the Tolerant band rule -/

/-- A single comparison observed exactly at the upper band edge for
`equal_width = 1/5`. -/
def c4map : CompMap := [((0, 1), 3/5)]

/-- A feasible Tolerant point for `c4map` with zero error and the equal
decision active. -/
def c4sol : TSol :=
  ⟨fun _ => 0, fun _ => 0, fun _ => 0, fun _ => 1, fun _ => 0, fun _ => 0,
   fun _ => 0⟩

theorem c4map_nodes : nodesOf c4map = [0, 1] := by
  simp [nodesOf, nodeList, c4map]

theorem c4map_bigM : bigM c4map = 2 := by
  unfold bigM
  rw [c4map_nodes]
  norm_num

theorem c4map_tols : tolTriIneqs c4map = [] := by decide

theorem c4sol_feasible : FeasibleT c4map (1/5) c4sol := by
  unfold FeasibleT
  rw [c4map_nodes, c4map_bigM, c4map_tols]
  refine ⟨?_, ?_, ?_, ?_, ?_, ?_, ?_, ?_, ?_⟩ <;>
    simp [c4map, c4sol, rankLarger, rankEqualOne, interiorVal,
      canonKey, keysOf, upBand, lowBand] <;> norm_num

/-- C4 counterexample: with `equal_width = 1/5` the upper band edge is
3/5; the point `c4sol` is feasible for the observation 3/5 with corrected
value `3/5 >= 0.5 + w/2`, yet `ge = 0` (the equal decision is active) —
`ge = 1 iff corrected >= 0.5 + w/2` fails at the band edge. -/
theorem C4_band_edge_not_forced :
    FeasibleT c4map (1/5) c4sol ∧
    c4sol.e (0, 1) + 3/5 ≥ upBand (1/5) ∧ c4sol.ge (0, 1) ≠ 1 := by
  refine ⟨c4sol_feasible, ?_, ?_⟩
  · simp [c4sol, upBand]
    norm_num
  · simp [c4sol]

/-- C4 amended: in every feasible Tolerant solution and stored pair,
exactly one of ge, le, eq equals 1; `ge = 1` implies corrected value
`>= 0.5 + w/2` and corrected value strictly above forces `ge = 1`;
`le = 1` implies corrected value `<= 0.5 - w/2` and strictly below forces
`le = 1`; `eq = 1` implies the corrected value lies in the closed band.
Exactly at a band edge both adjacent decisions are feasible. -/
theorem C4_band_rule_amended (m : CompMap) (w : ℚ) (s : TSol)
    (h : FeasibleT m w s) : ∀ kv ∈ m,
    ((s.ge kv.1 = 1 ∧ s.le kv.1 = 0 ∧ s.eq kv.1 = 0) ∨
     (s.ge kv.1 = 0 ∧ s.le kv.1 = 1 ∧ s.eq kv.1 = 0) ∨
     (s.ge kv.1 = 0 ∧ s.le kv.1 = 0 ∧ s.eq kv.1 = 1)) ∧
    (s.ge kv.1 = 1 → s.e kv.1 + kv.2 ≥ upBand w) ∧
    (s.e kv.1 + kv.2 > upBand w → s.ge kv.1 = 1) ∧
    (s.le kv.1 = 1 → s.e kv.1 + kv.2 ≤ lowBand w) ∧
    (s.e kv.1 + kv.2 < lowBand w → s.le kv.1 = 1) ∧
    (s.eq kv.1 = 1 →
      lowBand w ≤ s.e kv.1 + kv.2 ∧ s.e kv.1 + kv.2 ≤ upBand w) := by
  intro kv hkv
  obtain ⟨-, hB, -, -, hGe, hLe, hSum, -, -⟩ := h
  obtain ⟨hbg, hbl, hbq⟩ := hB kv hkv
  have hge := hGe kv hkv
  have hle := hLe kv hkv
  have hsum := hSum kv hkv
  refine ⟨?_, ?_, ?_, ?_, ?_, ?_⟩
  · rcases hbg with hg | hg <;> rcases hbl with hl | hl <;>
      rcases hbq with hq | hq
    · exfalso
      rw [hg, hl, hq] at hsum
      norm_num at hsum
    · right; right; exact ⟨hg, hl, hq⟩
    · right; left; exact ⟨hg, hl, hq⟩
    · exfalso
      rw [hg, hl, hq] at hsum
      norm_num at hsum
    · left; exact ⟨hg, hl, hq⟩
    · exfalso
      rw [hg, hl, hq] at hsum
      norm_num at hsum
    · exfalso
      rw [hg, hl, hq] at hsum
      norm_num at hsum
    · exfalso
      rw [hg, hl, hq] at hsum
      norm_num at hsum
  · intro h1
    rw [h1] at hge
    linarith [hge.2]
  · intro hgt
    rcases hbg with hg | hg
    · exfalso
      rw [hg] at hge
      linarith [hge.1]
    · exact hg
  · intro h1
    rw [h1] at hle
    linarith [hle.2]
  · intro hlt
    rcases hbl with hl | hl
    · exfalso
      rw [hl] at hle
      linarith [hle.1]
    · exact hl
  · intro h1
    have hg0 : s.ge kv.1 = 0 := by
      rcases hbg with hg | hg
      · exact hg
      · exfalso
        rcases hbl with hl | hl <;> rw [hg, hl, h1] at hsum <;> norm_num at hsum
    have hl0 : s.le kv.1 = 0 := by
      rcases hbl with hl | hl
      · exact hl
      · exfalso
        rw [hg0, hl, h1] at hsum
        norm_num at hsum
    constructor
    · rw [hl0] at hle
      linarith [hle.1]
    · rw [hg0] at hge
      linarith [hge.1]

theorem C4_band_rule_amended_witness :
    ((c4sol.ge ((0, 1), (3:ℚ)/5).1 = 1 ∧ c4sol.le ((0, 1), (3:ℚ)/5).1 = 0 ∧
      c4sol.eq ((0, 1), (3:ℚ)/5).1 = 0) ∨
     (c4sol.ge ((0, 1), (3:ℚ)/5).1 = 0 ∧ c4sol.le ((0, 1), (3:ℚ)/5).1 = 1 ∧
      c4sol.eq ((0, 1), (3:ℚ)/5).1 = 0) ∨
     (c4sol.ge ((0, 1), (3:ℚ)/5).1 = 0 ∧ c4sol.le ((0, 1), (3:ℚ)/5).1 = 0 ∧
      c4sol.eq ((0, 1), (3:ℚ)/5).1 = 1)) ∧
    (c4sol.ge ((0, 1), (3:ℚ)/5).1 = 1 →
      c4sol.e ((0, 1), (3:ℚ)/5).1 + ((0, 1), (3:ℚ)/5).2 ≥ upBand (1/5)) ∧
    (c4sol.e ((0, 1), (3:ℚ)/5).1 + ((0, 1), (3:ℚ)/5).2 > upBand (1/5) →
      c4sol.ge ((0, 1), (3:ℚ)/5).1 = 1) ∧
    (c4sol.le ((0, 1), (3:ℚ)/5).1 = 1 →
      c4sol.e ((0, 1), (3:ℚ)/5).1 + ((0, 1), (3:ℚ)/5).2 ≤ lowBand (1/5)) ∧
    (c4sol.e ((0, 1), (3:ℚ)/5).1 + ((0, 1), (3:ℚ)/5).2 < lowBand (1/5) →
      c4sol.le ((0, 1), (3:ℚ)/5).1 = 1) ∧
    (c4sol.eq ((0, 1), (3:ℚ)/5).1 = 1 →
      lowBand (1/5) ≤ c4sol.e ((0, 1), (3:ℚ)/5).1 + ((0, 1), (3:ℚ)/5).2 ∧
      c4sol.e ((0, 1), (3:ℚ)/5).1 + ((0, 1), (3:ℚ)/5).2 ≤ upBand (1/5)) :=
  C4_band_rule_amended c4map (1/5) c4sol c4sol_feasible ((0, 1), 3/5)
    (by simp [c4map])

/-! ## Claim C9: the precondition check -/

instance (v : ℚ) : Decidable (interiorVal v) := by
  unfold interiorVal
  infer_instance

/-- The failure the staged pipeline can raise before building variables:
the range assert on the canonical values (line 31/34). -/
inductive RankFailure
  | precondition
deriving DecidableEq

/-- The variables the Basic phase-1 model declares (lines 33-49): error and
decision variables per stored pair, a rank surrogate per node, abs helpers
per interior pair. -/
structure ModelVarsB where
  eVars : List Pair
  zVars : List Pair
  rVars : List ℕ
  tpVars : List Pair
  tnVars : List Pair
deriving DecidableEq

/-- Build the variable lists of the Basic phase-1 model. -/
def buildVarsB (m : CompMap) : ModelVarsB :=
  ⟨keysOf m, keysOf m, nodesOf m,
   keysOf (m.filter (fun kv => decide (interiorVal kv.2))),
   keysOf (m.filter (fun kv => decide (interiorVal kv.2)))⟩

/-- The staged entry of the Basic variant: canonicalize, then run the range
assert `values.max() <= 1 and values.min() >= 0` (line 31) on the canonical
values; only if it passes are the model variables created (and constraints
and the solve follow). -/
def findRankingStagedB (input : CompMap) : Except RankFailure ModelVarsB :=
  if ∀ kv ∈ canonicalize input, 0 ≤ kv.2 ∧ kv.2 ≤ 1 then
    Except.ok (buildVarsB (canonicalize input))
  else Except.error RankFailure.precondition

theorem dictInsert_of_not_mem {m : CompMap} {k : Pair} (h : k ∉ keysOf m)
    (v : ℚ) : dictInsert m k v = m ++ [(k, v)] := by
  unfold dictInsert
  have hfalse : (m.any (fun kv => kv.1 = k)) = false := by
    rw [List.any_eq_false]
    intro kv hkv
    simp only [decide_eq_true_eq]
    intro heq
    exact h (heq ▸ List.mem_map_of_mem _ hkv)
  rw [hfalse]
  simp

theorem canonicalize_aux (input : CompMap) : ∀ acc : CompMap,
    (input.map (fun kv => canonKey kv.1)).Nodup →
    (∀ kv ∈ input, canonKey kv.1 ∉ keysOf acc) →
    input.foldl (fun m kv => dictInsert m (canonKey kv.1) (canonVal kv.1 kv.2)) acc
      = acc ++ input.map (fun kv => (canonKey kv.1, canonVal kv.1 kv.2)) := by
  induction input with
  | nil =>
    intro acc h1 h2
    simp
  | cons hd tl ih =>
    intro acc h1 h2
    rw [List.map_cons] at h1
    have h1c := List.nodup_cons.mp h1
    simp only [List.foldl_cons, List.map_cons]
    rw [dictInsert_of_not_mem (h2 hd (List.mem_cons_self _ _))]
    rw [ih (acc ++ [(canonKey hd.1, canonVal hd.1 hd.2)]) h1c.2 ?_]
    · simp
    · intro kv hkv
      have hne : canonKey kv.1 ≠ canonKey hd.1 := by
        intro heq
        exact h1c.1 (heq ▸ List.mem_map_of_mem (fun kv => canonKey kv.1) hkv)
      have hold := h2 kv (List.mem_cons_of_mem _ hkv)
      unfold keysOf at hold ⊢
      rw [List.map_append]
      intro hmem
      rcases List.mem_append.mp hmem with hmem | hmem
      · exact hold hmem
      · simp at hmem
        exact hne hmem

/-- When the entries of the input have pairwise distinct canonical keys (no
pair is given in both orientations), canonicalization is entrywise. -/
theorem canonicalize_eq_map {input : CompMap}
    (h : (input.map (fun kv => canonKey kv.1)).Nodup) :
    canonicalize input
      = input.map (fun kv => (canonKey kv.1, canonVal kv.1 kv.2)) := by
  unfold canonicalize
  have := canonicalize_aux input [] h (by simp [keysOf])
  simpa using this

theorem canonVal_preserves_bad {p : Pair} {v : ℚ} (h : v < 0 ∨ 1 < v) :
    canonVal p v < 0 ∨ 1 < canonVal p v := by
  unfold canonVal
  split_ifs
  · exact h
  · rcases h with h | h
    · right
      linarith
    · left
      linarith

/-- A value outside [0,1] whose pair also appears later in the opposite
orientation: the second write overwrites the first. -/
def c9input : CompMap := [((0, 1), 2), ((1, 0), 1/2)]

theorem c9canon : canonicalize c9input = [((0, 1), 1 - 1/2)] := by
  simp [canonicalize, c9input, dictInsert, canonKey, canonVal, keysOf]

/-- C9 counterexample: the input probability 2 lies outside [0,1], but the
later entry for the same unordered pair overwrites it during
canonicalization, the range assert sees only 1 - 1/2, and the call
proceeds to build the model instead of failing. -/
theorem C9_overwritten_bad_value :
    (((0, 1), (2 : ℚ)) ∈ c9input ∧ ((2 : ℚ) < 0 ∨ 1 < (2 : ℚ))) ∧
    findRankingStagedB c9input ≠ Except.error RankFailure.precondition := by
  refine ⟨⟨by simp [c9input], by norm_num⟩, ?_⟩
  have hcond : ∀ kv ∈ canonicalize c9input, 0 ≤ kv.2 ∧ kv.2 ≤ 1 := by
    rw [c9canon]
    intro kv hkv
    simp at hkv
    subst hkv
    norm_num
  unfold findRankingStagedB
  rw [if_pos hcond]
  simp

/-- C9 amended: the call fails with the precondition failure, before any
variable or constraint is created and before any solve, exactly on the
canonicalized values: whenever some value of the canonical map lies
outside [0,1] — in particular whenever the input gives each unordered pair
in only one orientation and some input probability lies outside [0,1].  An
out-of-range probability overwritten by a later entry for the same
unordered pair escapes the check. -/
theorem C9_precondition_amended (input : CompMap) :
    ((∃ kv ∈ canonicalize input, kv.2 < 0 ∨ 1 < kv.2) →
      findRankingStagedB input = Except.error RankFailure.precondition) ∧
    ((input.map (fun kv => canonKey kv.1)).Nodup →
      (∃ kv ∈ input, kv.2 < 0 ∨ 1 < kv.2) →
      findRankingStagedB input = Except.error RankFailure.precondition) := by
  have key : (∃ kv ∈ canonicalize input, kv.2 < 0 ∨ 1 < kv.2) →
      findRankingStagedB input = Except.error RankFailure.precondition := by
    intro hbad
    have hnc : ¬ ∀ kv ∈ canonicalize input, 0 ≤ kv.2 ∧ kv.2 ≤ 1 := by
      intro hall
      rcases hbad with ⟨kv, hkv, hv⟩
      rcases hall kv hkv with ⟨h0, h1⟩
      rcases hv with hv | hv <;> linarith
    unfold findRankingStagedB
    rw [if_neg hnc]
  refine ⟨key, ?_⟩
  intro hnd hbad
  apply key
  rcases hbad with ⟨kv, hkv, hv⟩
  refine ⟨(canonKey kv.1, canonVal kv.1 kv.2), ?_, canonVal_preserves_bad hv⟩
  rw [canonicalize_eq_map hnd]
  exact List.mem_map_of_mem _ hkv

theorem C9_precondition_amended_witness :
    findRankingStagedB [((0, 1), (2 : ℚ))]
      = Except.error RankFailure.precondition := by
  apply (C9_precondition_amended [((0, 1), (2 : ℚ))]).1
  refine ⟨((0, 1), (2 : ℚ)), ?_, by norm_num⟩
  rw [canonicalize_singleton]
  simp [canonKey, canonVal]

/-! ## Claim C6: the transitivity generator -/

theorem countP_flatMap {α β : Type} (l : List α) (f : α → List β)
    (p : β → Bool) :
    (l.flatMap f).countP p = (l.map (fun a => (f a).countP p)).sum := by
  induction l with
  | nil => simp
  | cons hd tl ih => simp [List.flatMap_cons, List.countP_append, ih]

theorem sum_map_eq_single {α : Type} {l : List α} {a : α} (f : α → ℕ)
    (hnd : l.Nodup) (ha : a ∈ l)
    (hz : ∀ b ∈ l, b ≠ a → f b = 0) : (l.map f).sum = f a := by
  induction l with
  | nil => cases ha
  | cons hd tl ih =>
    rw [List.map_cons, List.sum_cons]
    rcases List.mem_cons.mp ha with rfl | ha2
    · have hz2 : (tl.map f).sum = 0 := by
        apply List.sum_eq_zero
        intro x hx
        rcases List.mem_map.mp hx with ⟨b, hb, rfl⟩
        exact hz b (List.mem_cons_of_mem _ hb)
          (fun heq => (List.nodup_cons.mp hnd).1 (heq ▸ hb))
      rw [hz2]
      omega
    · have hhd : f hd = 0 := by
        apply hz hd (List.mem_cons_self _ _)
        intro heq
        exact (List.nodup_cons.mp hnd).1 (heq ▸ ha2)
      rw [hhd, ih (List.nodup_cons.mp hnd).2 ha2
        (fun b hb hne => hz b (List.mem_cons_of_mem _ hb) hne)]
      simp

theorem tolSeven_countP_self (i j k : ℕ) :
    (tolSeven i j k).countP (fun t => t.tri = (i, j, k)) = 7 := by
  simp [tolSeven, List.countP_cons]

theorem tolSeven_countP_ne {a b c i j k : ℕ}
    (h : ¬ (a = i ∧ b = j ∧ c = k)) :
    (tolSeven a b c).countP (fun t => t.tri = (i, j, k)) = 0 := by
  have hne : ((a, b, c) : ℕ × ℕ × ℕ) ≠ (i, j, k) := by
    intro heq
    apply h
    simpa [Prod.ext_iff] using heq
  simp [tolSeven, List.countP_cons, hne]

theorem eq_of_mem_keys_nodup {m : CompMap} (hnd : (keysOf m).Nodup)
    {a b : Pair × ℚ} (ha : a ∈ m) (hb : b ∈ m) (hk : a.1 = b.1) : a = b :=
  List.inj_on_of_nodup_map hnd ha hb hk

/-- Every inequality of `tolSeven i j k` is emitted when the triple
qualifies. -/
theorem tolSeven_mem_tolTriIneqs {m : CompMap} {i j : ℕ} {v : ℚ} {k : ℕ}
    (hv : ((i, j), v) ∈ m) (hk : k ∈ nodesOf m)
    (hjk : canonKey (j, k) ∈ keysOf m) (hik : canonKey (i, k) ∈ keysOf m) :
    ∀ t ∈ tolSeven i j k, t ∈ tolTriIneqs m := by
  intro t ht
  unfold tolTriIneqs
  refine List.mem_flatMap.mpr ⟨((i, j), v), hv, ?_⟩
  refine List.mem_flatMap.mpr ⟨k, hk, ?_⟩
  rw [if_pos ⟨hjk, hik⟩]
  exact ht

theorem zOriented_binary {m : CompMap} {z : Pair → ℚ}
    (hbin : ∀ p ∈ keysOf m, z p = 0 ∨ z p = 1) {x y : ℕ}
    (hleg : canonKey (x, y) ∈ keysOf m) :
    zOriented z x y = 0 ∨ zOriented z x y = 1 := by
  unfold zOriented
  by_cases hxy : x > y
  · rw [if_pos hxy]
    rcases hbin _ hleg with h | h <;> rw [h]
    · right
      norm_num
    · left
      norm_num
  · rw [if_neg hxy]
    exact hbin _ hleg

theorem orient_binary {g l q : Pair → ℚ} {m : CompMap}
    (hbin : ∀ p ∈ keysOf m,
      (g p = 0 ∨ g p = 1) ∧ (l p = 0 ∨ l p = 1) ∧ (q p = 0 ∨ q p = 1))
    {x y : ℕ} (hleg : canonKey (x, y) ∈ keysOf m) :
    (geOrient g l x y = 0 ∨ geOrient g l x y = 1) ∧
    (leOrient g l x y = 0 ∨ leOrient g l x y = 1) ∧
    (eqOrient q x y = 0 ∨ eqOrient q x y = 1) := by
  obtain ⟨hg, hl, hq⟩ := hbin _ hleg
  unfold geOrient leOrient eqOrient
  by_cases hxy : x > y
  · rw [if_pos hxy, if_pos hxy]
    exact ⟨hl, hg, hq⟩
  · rw [if_neg hxy, if_neg hxy]
    exact ⟨hg, hl, hq⟩

/-- C6: for every qualifying ordered triple `(i, j, k)` (first leg a stored
canonical pair, both other legs stored directly or flipped), the Tolerant
generator emits exactly seven inequalities tagged with that triple, each of
the form `a + b <= 1 + c`; under binary decisions satisfying them they
close dominance transitively for every combination of the three relations,
with the indicators oriented by the leg direction.  The Basic generator
likewise closes the oriented strict dominance in both directions (an
oriented decision value 0 is dominance of the flipped leg, so the second
implication is the closure of the reversed chain). -/
theorem C6_transitivity_closure (m : CompMap) (i j k : ℕ)
    (hnd : (keysOf m).Nodup) (hlt : i < j)
    (hij : (i, j) ∈ keysOf m) (hk : k ∈ nodesOf m)
    (hjk : canonKey (j, k) ∈ keysOf m) (hik : canonKey (i, k) ∈ keysOf m) :
    ((tolTriIneqs m).countP (fun t => t.tri = (i, j, k)) = 7) ∧
    (∀ g l q : Pair → ℚ,
      (∀ p ∈ keysOf m,
        (g p = 0 ∨ g p = 1) ∧ (l p = 0 ∨ l p = 1) ∧ (q p = 0 ∨ q p = 1)) →
      (∀ t ∈ tolTriIneqs m, triHolds g l q t) →
      ((geOrient g l i j = 1 → geOrient g l j k = 1 → geOrient g l i k = 1) ∧
       (leOrient g l i j = 1 → leOrient g l j k = 1 → leOrient g l i k = 1) ∧
       (leOrient g l i j = 1 → eqOrient q j k = 1 → leOrient g l i k = 1) ∧
       (eqOrient q i j = 1 → leOrient g l j k = 1 → leOrient g l i k = 1) ∧
       (geOrient g l i j = 1 → eqOrient q j k = 1 → geOrient g l i k = 1) ∧
       (eqOrient q i j = 1 → geOrient g l j k = 1 → geOrient g l i k = 1) ∧
       (eqOrient q i j = 1 → eqOrient q j k = 1 → eqOrient q i k = 1))) ∧
    (∀ s : BSol, FeasibleB m s →
      ((zOriented s.z i j = 1 → zOriented s.z j k = 1 →
          zOriented s.z i k = 1) ∧
       (zOriented s.z i j = 0 → zOriented s.z j k = 0 →
          zOriented s.z i k = 0))) := by
  obtain ⟨v, hv⟩ := exists_entry_of_mem_keys hij
  have hmn : m.Nodup := List.Nodup.of_map Prod.fst hnd
  refine ⟨?_, ?_, ?_⟩
  · unfold tolTriIneqs
    rw [countP_flatMap]
    refine Eq.trans (sum_map_eq_single _ hmn hv ?_) ?_
    · intro b hb hbne
      dsimp only
      rw [countP_flatMap]
      apply List.sum_eq_zero
      intro x hx
      rcases List.mem_map.mp hx with ⟨b2, hb2, rfl⟩
      by_cases hg : canonKey (b.1.2, b2) ∈ keysOf m ∧
          canonKey (b.1.1, b2) ∈ keysOf m
      · rw [if_pos hg]
        apply tolSeven_countP_ne
        intro hc
        apply hbne
        apply eq_of_mem_keys_nodup hnd hb hv
        rw [Prod.ext_iff]
        exact ⟨hc.1, hc.2.1⟩
      · rw [if_neg hg]
        rfl
    · dsimp only
      rw [countP_flatMap]
      refine Eq.trans (sum_map_eq_single _ (nodesOf_nodup m) hk ?_) ?_
      · intro b hb hbne
        dsimp only
        by_cases hg : canonKey (j, b) ∈ keysOf m ∧ canonKey (i, b) ∈ keysOf m
        · rw [if_pos hg]
          exact tolSeven_countP_ne (fun hc => hbne hc.2.2)
        · rw [if_neg hg]
          rfl
      · dsimp only
        rw [if_pos ⟨hjk, hik⟩]
        exact tolSeven_countP_self i j k
  · intro g l q hbin htri
    have hmem := tolSeven_mem_tolTriIneqs hv hk hjk hik
    have hCb := orient_binary hbin hik
    have hAij : geOrient g l i j = g (i, j) := by
      unfold geOrient
      rw [if_neg (Nat.lt_asymm hlt), canonKey_of_not_gt (Nat.lt_asymm hlt)]
    have hAij2 : leOrient g l i j = l (i, j) := by
      unfold leOrient
      rw [if_neg (Nat.lt_asymm hlt), canonKey_of_not_gt (Nat.lt_asymm hlt)]
    have hAij3 : eqOrient q i j = q (i, j) := by
      unfold eqOrient
      rw [canonKey_of_not_gt (Nat.lt_asymm hlt)]
    refine ⟨?_, ?_, ?_, ?_, ?_, ?_, ?_⟩
    · intro h1 h2
      have ht := htri _ (hmem
        ⟨(i, j, k), ⟨.dge, (i, j)⟩, tolInd .dge j k, tolInd .dge i k⟩
        (by simp [tolSeven]))
      simp only [triHolds, evalInd_mkg, evalInd_ge] at ht
      rw [hAij] at h1
      rw [h1, h2] at ht
      rcases hCb.1 with h0 | h0
      · rw [h0] at ht
        linarith
      · exact h0
    · intro h1 h2
      have ht := htri _ (hmem
        ⟨(i, j, k), ⟨.dle, (i, j)⟩, tolInd .dle j k, tolInd .dle i k⟩
        (by simp [tolSeven]))
      simp only [triHolds, evalInd_mkl, evalInd_le] at ht
      rw [hAij2] at h1
      rw [h1, h2] at ht
      rcases hCb.2.1 with h0 | h0
      · rw [h0] at ht
        linarith
      · exact h0
    · intro h1 h2
      have ht := htri _ (hmem
        ⟨(i, j, k), ⟨.dle, (i, j)⟩, tolInd .deq j k, tolInd .dle i k⟩
        (by simp [tolSeven]))
      simp only [triHolds, evalInd_mkl, evalInd_eq, evalInd_le] at ht
      rw [hAij2] at h1
      rw [h1, h2] at ht
      rcases hCb.2.1 with h0 | h0
      · rw [h0] at ht
        linarith
      · exact h0
    · intro h1 h2
      have ht := htri _ (hmem
        ⟨(i, j, k), ⟨.deq, (i, j)⟩, tolInd .dle j k, tolInd .dle i k⟩
        (by simp [tolSeven]))
      simp only [triHolds, evalInd_mkq, evalInd_le] at ht
      rw [hAij3] at h1
      rw [h1, h2] at ht
      rcases hCb.2.1 with h0 | h0
      · rw [h0] at ht
        linarith
      · exact h0
    · intro h1 h2
      have ht := htri _ (hmem
        ⟨(i, j, k), ⟨.dge, (i, j)⟩, tolInd .deq j k, tolInd .dge i k⟩
        (by simp [tolSeven]))
      simp only [triHolds, evalInd_mkg, evalInd_eq, evalInd_ge] at ht
      rw [hAij] at h1
      rw [h1, h2] at ht
      rcases hCb.1 with h0 | h0
      · rw [h0] at ht
        linarith
      · exact h0
    · intro h1 h2
      have ht := htri _ (hmem
        ⟨(i, j, k), ⟨.deq, (i, j)⟩, tolInd .dge j k, tolInd .dge i k⟩
        (by simp [tolSeven]))
      simp only [triHolds, evalInd_mkq, evalInd_ge] at ht
      rw [hAij3] at h1
      rw [h1, h2] at ht
      rcases hCb.1 with h0 | h0
      · rw [h0] at ht
        linarith
      · exact h0
    · intro h1 h2
      have ht := htri _ (hmem
        ⟨(i, j, k), ⟨.deq, (i, j)⟩, tolInd .deq j k, tolInd .deq i k⟩
        (by simp [tolSeven]))
      simp only [triHolds, evalInd_mkq, evalInd_eq] at ht
      rw [hAij3] at h1
      rw [h1, h2] at ht
      rcases hCb.2.2 with h0 | h0
      · rw [h0] at ht
        linarith
      · exact h0
  · intro s hs
    obtain ⟨-, hZ, -, -, -, hTr, -⟩ := hs
    have hbinZ : ∀ p ∈ keysOf m, s.z p = 0 ∨ s.z p = 1 := by
      intro p hp
      obtain ⟨v2, hv2⟩ := exists_entry_of_mem_keys hp
      exact hZ _ hv2
    have hCb := zOriented_binary hbinZ hik
    have ht2 : s.z (i, j) + zOriented s.z j k ≤ 1 + zOriented s.z i k ∧
        zOriented s.z i k ≤ s.z (i, j) + zOriented s.z j k :=
      hTr ((i, j), v) hv k hk hjk hik
    have hAij : zOriented s.z i j = s.z (i, j) := by
      unfold zOriented
      rw [if_neg (Nat.lt_asymm hlt), canonKey_of_not_gt (Nat.lt_asymm hlt)]
    constructor
    · intro h1 h2
      rw [hAij] at h1
      have hup := ht2.1
      rw [h1, h2] at hup
      rcases hCb with h0 | h0
      · rw [h0] at hup
        linarith
      · exact h0
    · intro h1 h2
      rw [hAij] at h1
      have hlo := ht2.2
      rw [h1, h2] at hlo
      rcases hCb with h0 | h0
      · exact h0
      · rw [h0] at hlo
        linarith

/-- A stored triangle: pairs (0,1), (1,2), (0,2). -/
def c6map : CompMap := [((0, 1), 1), ((1, 2), 1), ((0, 2), 1)]

theorem C6_transitivity_closure_witness :
    ((tolTriIneqs c6map).countP (fun t => t.tri = (0, 1, 2)) = 7) ∧
    (∀ g l q : Pair → ℚ,
      (∀ p ∈ keysOf c6map,
        (g p = 0 ∨ g p = 1) ∧ (l p = 0 ∨ l p = 1) ∧ (q p = 0 ∨ q p = 1)) →
      (∀ t ∈ tolTriIneqs c6map, triHolds g l q t) →
      ((geOrient g l 0 1 = 1 → geOrient g l 1 2 = 1 → geOrient g l 0 2 = 1) ∧
       (leOrient g l 0 1 = 1 → leOrient g l 1 2 = 1 → leOrient g l 0 2 = 1) ∧
       (leOrient g l 0 1 = 1 → eqOrient q 1 2 = 1 → leOrient g l 0 2 = 1) ∧
       (eqOrient q 0 1 = 1 → leOrient g l 1 2 = 1 → leOrient g l 0 2 = 1) ∧
       (geOrient g l 0 1 = 1 → eqOrient q 1 2 = 1 → geOrient g l 0 2 = 1) ∧
       (eqOrient q 0 1 = 1 → geOrient g l 1 2 = 1 → geOrient g l 0 2 = 1) ∧
       (eqOrient q 0 1 = 1 → eqOrient q 1 2 = 1 → eqOrient q 0 2 = 1))) ∧
    (∀ s : BSol, FeasibleB c6map s →
      ((zOriented s.z 0 1 = 1 → zOriented s.z 1 2 = 1 →
          zOriented s.z 0 2 = 1) ∧
       (zOriented s.z 0 1 = 0 → zOriented s.z 1 2 = 0 →
          zOriented s.z 0 2 = 0))) :=
  C6_transitivity_closure c6map 0 1 2 (by decide) (by decide) (by decide)
    (by decide) (by decide) (by decide)
